import Mathlib

/-!
Verification development for the PII detection/redaction and anomaly-scoring
core of `src/streamlit_app.py`.

The Python core is shallowly embedded as executable Lean definitions:

* the four regular expressions used by `PIIDetector` are embedded as
  deterministic matchers on `List Char` that reproduce Python `re`'s
  leftmost scanning, greedy option/backtracking priority and `\b`
  word-boundary semantics (ASCII word characters `[A-Za-z0-9_]`, which is
  what every value in scope here contains);
* `re.sub` is embedded as a left-to-right scan that replaces each
  non-overlapping match and resumes after it, with the previous original
  character kept for the next boundary test, exactly as `re.sub` does;
* pandas cell values are an explicit tagged type `Cell` (missing / text /
  number); floating point arithmetic is idealised as exact rationals `ℚ`;
* fallible code (`f'{amount:,.2f}'` raising `ValueError` on a string
  argument) is embedded in `Except`.
-/

/-! ### Character classes (Python `re`, ASCII fragment) -/

/-- Python `\w` on the values in scope: ASCII letters, digits, underscore. -/
def isWordChar (c : Char) : Bool := c.isAlpha || c.isDigit || c == '_'

/-- Word-class of the character left (or right) of a position; the edge of the
string counts as a non-word character, as in Python `\b`. -/
def wordOpt : Option Char → Bool
  | none => false
  | some c => isWordChar c

/-- The character class `[-.\s]` of the phone pattern. -/
def isSepChar (c : Char) : Bool :=
  c == '-' || c == '.' || c == ' ' || c == '\t' || c == '\n' || c == '\r' ||
  c == Char.ofNat 11 || c == Char.ofNat 12

/-- The class `[A-Za-z0-9._%+-]` of the email local part. -/
def isLocalChar (c : Char) : Bool :=
  c.isAlpha || c.isDigit || c == '.' || c == '_' || c == '%' || c == '+' || c == '-'

/-- The class `[A-Za-z0-9.-]` of the email domain. -/
def isDomainChar (c : Char) : Bool :=
  c.isAlpha || c.isDigit || c == '.' || c == '-'

/-- The class `[A-Z|a-z]` of the email TLD (the `|` is literal in the source
pattern). -/
def isTldChar (c : Char) : Bool := c.isAlpha || c == '|'

/-! ### Parsing combinators for the fixed patterns -/

/-- Consume exactly `n` digits (`\d{n}`). -/
def exactDigits : Nat → List Char → Option (List Char × List Char)
  | 0, s => some ([], s)
  | _ + 1, [] => none
  | n + 1, c :: cs =>
    if c.isDigit then (exactDigits n cs).map (fun p => (c :: p.1, p.2)) else none

/-- Consume one character satisfying `p` if present (`X?`, greedy). -/
def optChar (p : Char → Bool) : List Char → List Char × List Char
  | [] => ([], [])
  | c :: cs => if p c then ([c], cs) else ([], c :: cs)

/-! ### The four matchers

Each matcher receives the character preceding the current position (`prev`,
`none` at the start of the string) and the remaining input, and returns the
matched characters and the rest, or `none`.  They reproduce the match that
Python's backtracking engine commits to at this position. -/

/-- Matcher for `\b\d{3}-?\d{2}-?\d{4}\b` (SSN).  Each `-?` is forced: if the
next character is a dash the greedy branch is the only viable one (skipping
it makes the following `\d` fail on the dash), so the parse is deterministic. -/
def ssnMatch (prev : Option Char) (s : List Char) : Option (List Char × List Char) :=
  if wordOpt prev then none else
  (exactDigits 3 s).bind (fun q3 =>
    (exactDigits 2 (optChar (· == '-') q3.2).2).bind (fun q2 =>
      (exactDigits 4 (optChar (· == '-') q2.2).2).bind (fun q4 =>
        if wordOpt q4.2.head? then none
        else some (q3.1 ++ (optChar (· == '-') q3.2).1 ++ q2.1 ++
          (optChar (· == '-') q2.2).1 ++ q4.1, q4.2))))

/-- The mandatory tail `\d{3}[-.\s]?\d{4}\b` of the phone pattern. -/
def phoneTail (s : List Char) : Option (List Char × List Char) :=
  (exactDigits 3 s).bind (fun qa =>
    (exactDigits 4 (optChar isSepChar qa.2).2).bind (fun qb =>
      if wordOpt qb.2.head? then none
      else some (qa.1 ++ (optChar isSepChar qa.2).1 ++ qb.1, qb.2)))

/-- The phone pattern with the optional area-code group `(?:\(?\d{3}\)?[-.\s]?)`
taken (the greedy first alternative of the engine). -/
def phoneGroup (s : List Char) : Option (List Char × List Char) :=
  (exactDigits 3 (optChar (· == '(') s).2).bind (fun qa =>
    (phoneTail (optChar isSepChar (optChar (· == ')') qa.2).2).2).bind (fun qt =>
      some ((optChar (· == '(') s).1 ++ qa.1 ++ (optChar (· == ')') qa.2).1 ++
        (optChar isSepChar (optChar (· == ')') qa.2).2).1 ++ qt.1, qt.2)))

/-- Matcher for `\b(?:\(?\d{3}\)?[-.\s]?)?\d{3}[-.\s]?\d{4}\b` (phone).  The
engine tries the group-present alternative first and falls back to the bare
seven-digit tail. -/
def phoneMatch (prev : Option Char) (s : List Char) : Option (List Char × List Char) :=
  if wordOpt prev == wordOpt s.head? then none else
  (phoneGroup s).or (phoneTail s)

/-- Matcher for `\b\d{8,}\b` (account number).  `\d{8,}` is greedy; any
shorter backtracked run is followed by a digit, which kills the trailing
`\b`, so only the maximal digit run can match. -/
def accountMatch (prev : Option Char) (s : List Char) : Option (List Char × List Char) :=
  if wordOpt prev then none else
  if 8 ≤ (s.span (·.isDigit)).1.length && !(wordOpt (s.span (·.isDigit)).2.head?) then
    some (s.span (·.isDigit))
  else none

/-- Try `f` at `n, n-1, …, 1` and return the first success (the engine's
greedy backtracking order over a quantifier length). -/
def tryDown (f : Nat → Option α) : Nat → Option α
  | 0 => none
  | n + 1 =>
    match f (n + 1) with
    | some r => some r
    | none => tryDown f n

/-- Choose the TLD length for `[A-Z|a-z]{2,}\b`: `t` is the maximal run of
TLD characters and `r` what follows it; lengths are tried greedily from
`t.length` down to `2`, each followed by the word-boundary test between the
last TLD character (a letter, or the literal `|`) and the next character. -/
def emailTldPick (t : List Char) (r : List Char) : Option (List Char × List Char) :=
  tryDown (fun j =>
    if j < 2 then none
    else if wordOpt ((t.take j).getLast?) == wordOpt (((t.drop j).head?).or r.head?) then none
    else some (t.take j, t.drop j ++ r)) t.length

/-- One domain-length candidate of `emailAfterAt`: the domain is the first
`k` characters of the munched run `d` when the character after them is the
literal dot, followed by the TLD choice over what remains. -/
def emailDomainAt (d rest0 : List Char) (k : Nat) : Option (List Char × List Char) :=
  if k < d.length && d.getD k ' ' == '.' then
    (emailTldPick (((d.drop (k + 1) ++ rest0).span isTldChar).1)
        (((d.drop (k + 1) ++ rest0).span isTldChar).2)).bind
      (fun q => some (d.take k ++ '.' :: q.1, q.2))
  else none

/-- Match `[A-Za-z0-9.-]+\.[A-Z|a-z]{2,}\b` against the text after the `@`:
the domain run is munched greedily and backtracked from the longest prefix
whose following character is the literal dot. -/
def emailAfterAt (s : List Char) : Option (List Char × List Char) :=
  tryDown (emailDomainAt ((s.span isDomainChar).1) ((s.span isDomainChar).2))
    ((s.span isDomainChar).1).length

/-- Matcher for `\b[A-Za-z0-9._%+-]+@[A-Za-z0-9.-]+\.[A-Z|a-z]{2,}\b`
(email).  The local part is a maximal munch (its class excludes `@`, so no
backtracking can help), then the domain/TLD split is resolved by
`emailAfterAt`. -/
def emailMatch (prev : Option Char) (s : List Char) : Option (List Char × List Char) :=
  if wordOpt prev == wordOpt s.head? then none else
  if ((s.span isLocalChar).1).isEmpty then none else
  match (s.span isLocalChar).2 with
  | c :: s2 =>
    if c = '@' then
      (emailAfterAt s2).bind (fun q => some ((s.span isLocalChar).1 ++ '@' :: q.1, q.2))
    else none
  | [] => none

/-! ### `re.search` and `re.sub` -/

/-- Scan for a match at any position (`re.search` as a Boolean). -/
def searchFrom (M : Option Char → List Char → Option (List Char × List Char)) :
    Option Char → List Char → Bool
  | _, [] => false
  | prev, c :: cs => (M prev (c :: cs)).isSome || searchFrom M (some c) cs

/-- Boolean `re.search` over a whole string. -/
def reSearch (M : Option Char → List Char → Option (List Char × List Char))
    (s : List Char) : Bool :=
  searchFrom M none s

/-- The scanning core of `re.sub`: at each position try the matcher; on a
match emit the mask and resume after the match, remembering the last matched
character as the boundary context (Python evaluates `\b` against the
original string).  `fuel` only needs to be at least the input length. -/
def scanSub (M : Option Char → List Char → Option (List Char × List Char))
    (maskOf : List Char → List Char) : Nat → Option Char → List Char → List Char
  | 0, _, _ => []
  | _ + 1, _, [] => []
  | fuel + 1, prev, c :: cs =>
    match M prev (c :: cs) with
    | some (m, r) => maskOf m ++ scanSub M maskOf fuel m.getLast? r
    | none => c :: scanSub M maskOf fuel (some c) cs

/-- Full `re.sub pattern mask s` for one of the fixed patterns. -/
def subAll (M : Option Char → List Char → Option (List Char × List Char))
    (maskOf : List Char → List Char) (s : List Char) : List Char :=
  scanSub M maskOf s.length none s

/-! ### Cell values

A pandas cell in this app is missing (`NaN`/`None`), a string, or a float;
floats are idealised as exact rationals. -/

/-- A tagged cell value: missing, text, or number. -/
inductive Cell
  | na
  | str (s : String)
  | num (q : ℚ)
deriving DecidableEq

/-- Digits of a natural number (most significant first); the extra fuel
argument keeps the recursion structural. -/
def natDigitsAux : Nat → Nat → List Char
  | 0, _ => []
  | _ + 1, 0 => []
  | fuel + 1, n => natDigitsAux fuel (n / 10) ++ [Char.ofNat (48 + n % 10)]

/-- Decimal representation of a natural number. -/
def natStr (n : Nat) : String := if n = 0 then "0" else ⟨natDigitsAux (n + 1) n⟩

/-- Left-pad a numeral with zeros to `k` characters. -/
def padZeros (s : String) (k : Nat) : String :=
  ⟨List.replicate (k - s.data.length) '0' ++ s.data⟩

/-- Absolute value of a rational, written to evaluate by kernel reduction
(`|q|` through the lattice instances does not). -/
def ratAbs (q : ℚ) : ℚ := if q < 0 then -q else q

/-- Smallest number of decimal places (up to float precision) that writes the
rational exactly, when one exists. -/
def decPlaces (q : ℚ) : Option Nat :=
  (List.range 18).find? (fun k => (q * (10 : ℚ) ^ k).den == 1)

/-- Model of Python `str(float)` for the decimal values this app handles:
integral floats print with a trailing `.0`, others with their shortest exact
decimal expansion.  (Rationals with no short decimal expansion cannot arise
from parsed CSV floats; they get a truncated 17-place fallback.) -/
def numRepr (q : ℚ) : String :=
  let sgn := if q < 0 then "-" else ""
  let a : ℚ := ratAbs q
  match decPlaces a with
  | some 0 => sgn ++ natStr a.num.toNat ++ ".0"
  | some k =>
    let n := (a * (10 : ℚ) ^ k).num.toNat
    sgn ++ natStr (n / 10 ^ k) ++ "." ++ padZeros (natStr (n % 10 ^ k)) k
  | none =>
    sgn ++ natStr ((a * (10 : ℚ) ^ 17).floor.toNat / 10 ^ 17) ++ ".0"

/-- Python `str(value)` on a cell (only ever applied to non-missing cells). -/
def cellStr : Cell → String
  | .na => ""
  | .str s => s
  | .num q => numRepr q

/-! ### PIIDetector: the four detectors and redaction -/

/-- Source `PIIDetector.detect_ssn`. -/
def detect_ssn (v : Cell) : Bool :=
  match v with
  | .na => false
  | _ => reSearch ssnMatch (cellStr v).data

/-- Source `PIIDetector.detect_phone`. -/
def detect_phone (v : Cell) : Bool :=
  match v with
  | .na => false
  | _ => reSearch phoneMatch (cellStr v).data

/-- Source `PIIDetector.detect_email`. -/
def detect_email (v : Cell) : Bool :=
  match v with
  | .na => false
  | _ => reSearch emailMatch (cellStr v).data

/-- Source `PIIDetector.detect_account_number`. -/
def detect_account_number (v : Cell) : Bool :=
  match v with
  | .na => false
  | _ => reSearch accountMatch (cellStr v).data

/-- The four PII categories. -/
inductive PIICat
  | ssn
  | phone
  | email
  | account
deriving DecidableEq

/-- The `pii_type` key used by `redact_pii`. -/
def catKey : PIICat → String
  | .ssn => "ssn"
  | .phone => "phone"
  | .email => "email"
  | .account => "account"

/-- The display name appended to `column_pii`. -/
def catName : PIICat → String
  | .ssn => "SSN"
  | .phone => "Phone"
  | .email => "Email"
  | .account => "Account Number"

/-- The matcher belonging to a category. -/
def matcherFor : PIICat → Option Char → List Char → Option (List Char × List Char)
  | .ssn => ssnMatch
  | .phone => phoneMatch
  | .email => emailMatch
  | .account => accountMatch

/-- The replacement for one match of a category: fixed literals, except the
account mask, which is a run of `X` of the matched length. -/
def maskFor : PIICat → List Char → List Char
  | .ssn, _ => "XXX-XX-XXXX".data
  | .phone, _ => "XXX-XXX-XXXX".data
  | .email, _ => "REDACTED@EMAIL.COM".data
  | .account, m => List.replicate m.length 'X'

/-- Redaction (`re.sub`) of one category's pattern over a string. -/
def redactStr (s : String) (c : PIICat) : String :=
  ⟨subAll (matcherFor c) (maskFor c) s.data⟩

/-- Source `PIIDetector.redact_pii`: missing values pass through, otherwise the cell
is stringified and the category's pattern substituted (an unknown
`pii_type` returns the stringified text unchanged). -/
def redact_pii (text : Cell) (pii_type : String) : Cell :=
  match text with
  | .na => .na
  | _ =>
    let s := cellStr text
    if pii_type = "ssn" then .str (redactStr s .ssn)
    else if pii_type = "phone" then .str (redactStr s .phone)
    else if pii_type = "email" then .str (redactStr s .email)
    else if pii_type = "account" then .str (redactStr s .account)
    else .str s

/-- The `elif` classification chain of `analyze_data`: first matching
category in the order SSN, Phone, Email, Account Number. -/
def classify (v : Cell) : Option PIICat :=
  if detect_ssn v then some .ssn
  else if detect_phone v then some .phone
  else if detect_email v then some .email
  else if detect_account_number v then some .account
  else none

/-- What one cell becomes in the redacted dataset. -/
def processCell (v : Cell) : Cell :=
  match classify v with
  | some c => redact_pii v (catKey c)
  | none => v

/-! ### Datasets and numeric parsing -/

/-- A tabular dataset: named columns of equal length, column-major (the code
accesses the frame column-wise throughout). -/
structure Dataset where
  cols : List (String × List Cell)
deriving DecidableEq

/-- Column access (`name in df.columns` / `df[name]`): the first column of that name. -/
def getCol (df : Dataset) (n : String) : Option (List Cell) :=
  df.cols.lookup n

/-- Row count `len(df)` (the length of the first column; `0` for a
columnless frame). -/
def Dataset.nRows (df : Dataset) : Nat :=
  match df.cols with
  | [] => 0
  | c :: _ => c.2.length

/-- Numeric value of a digit character. -/
def digitVal (c : Char) : Nat := c.toNat - 48

/-- Value of a digit string. -/
def parseDigits (l : List Char) : Nat := l.foldl (fun a c => 10 * a + digitVal c) 0

/-- Model of `pd.to_numeric(·, errors='coerce')` on a text cell: an optional
sign and a decimal numeral, with surrounding blanks tolerated; anything else
coerces to `NaN` (here: `none`). -/
def parseNum (s : String) : Option ℚ :=
  let t := ((s.data.dropWhile (· == ' ')).reverse.dropWhile (· == ' ')).reverse
  let sg : ℚ × List Char :=
    match t with
    | '-' :: u => (-1, u)
    | '+' :: u => (1, u)
    | u => (1, u)
  let ip := sg.2.takeWhile (·.isDigit)
  let rest := sg.2.dropWhile (·.isDigit)
  match rest with
  | [] => if ip.isEmpty then none else some (sg.1 * (parseDigits ip : ℚ))
  | '.' :: fr =>
    if fr.all (·.isDigit) && !(ip.isEmpty && fr.isEmpty) then
      some (sg.1 * ((parseDigits ip : ℚ) + (parseDigits fr : ℚ) / (10 : ℚ) ^ fr.length))
    else none
  | _ => none

/-- Model of `pd.to_numeric` on one cell (`NaN` stays `NaN`, numbers pass through). -/
def parseCell : Cell → Option ℚ
  | .na => none
  | .num q => some q
  | .str s => parseNum s

/-- Composition `pd.to_numeric(col, errors='coerce').dropna()`: the parsed numeric
population of a column, in row order. -/
def parsePop (cells : List Cell) : List ℚ := cells.filterMap parseCell

/-! ### Quantiles (pandas linear interpolation) -/

/-- Sort a rational population ascending. -/
def sortQ (l : List ℚ) : List ℚ := l.insertionSort (· ≤ ·)

/-- Model of `Series.quantile(q)` with pandas' default linear interpolation:
`pos = q*(n-1)`, `i = ⌊pos⌋`, result `x[i] + (pos-i) * (x[i+1] - x[i])`
over the sorted values. -/
def quantileLin (l : List ℚ) (q : ℚ) : ℚ :=
  let s := sortQ l
  let n := s.length
  if n = 0 then 0 else
  let pos : ℚ := q * ((n : ℚ) - 1)
  let i : Nat := pos.floor.toNat
  let frac : ℚ := pos - (pos.floor : ℚ)
  let xi := s.getD i 0
  let xj := s.getD (min (i + 1) (n - 1)) xi
  xi + frac * (xj - xi)

/-! ### Currency formatting (`f'{amount:,.2f}'`) -/

/-- Round to the nearest integer, ties to even (Python float formatting on
the idealised exact value). -/
def roundHalfEven (q : ℚ) : ℤ :=
  let f := q.floor
  let r := q - (f : ℚ)
  if r < 1 / 2 then f
  else if 1 / 2 < r then f + 1
  else if f % 2 = 0 then f else f + 1

/-- Insert thousands separators into a reversed digit list (`n` counts the
digits already emitted in the current group). -/
def commaRevAux : Nat → List Char → List Char
  | _, [] => []
  | n, c :: cs =>
    if n = 3 then ',' :: c :: commaRevAux 1 cs else c :: commaRevAux (n + 1) cs

/-- Decimal numeral with thousands separators. -/
def groupedNatStr (n : Nat) : String :=
  ⟨(commaRevAux 0 ((natStr n).data.reverse)).reverse⟩

/-- Formatting `f'{q:,.2f}'` of a number: sign, grouped integer part, two decimals. -/
def formatMoney (q : ℚ) : String :=
  let sgn := if q < 0 then "-" else ""
  let n := (roundHalfEven (ratAbs q * 100)).toNat
  sgn ++ groupedNatStr (n / 100) ++ "." ++ padZeros (natStr (n % 100)) 2

/-- Formatting `f'{c:,.2f}'` of a raw cell: floats format, anything else raises
`ValueError` (a missing key never reaches formatting because `groupby`
drops `NaN` keys). -/
def fmtAmountCell : Cell → Except Unit String
  | .num q => .ok (formatMoney q)
  | _ => .error ()

/-! ### AnomalyDetector -/

/-- One detected anomaly (`atype` is the source's `'type'` key). -/
structure Anomaly where
  atype : String
  description : String
  severity : String
  records_affected : Nat
deriving DecidableEq

/-- The `(vendor, amount)` row pairs entering `groupby(['vendor','amount'])`:
rows with a missing key are dropped (pandas `groupby` default). -/
def dupPairs (vn am : List Cell) : List (Cell × Cell) :=
  (vn.zip am).filter (fun p => !(p.1 == Cell.na) && !(p.2 == Cell.na))

/-- The duplicate-payment anomaly for a key, given its formatted amount. -/
def mkDupAnomaly (k : Cell × Cell) (aStr : String) (count : Nat) : Anomaly :=
  { atype := "Duplicate Payment"
    description :=
      "$" ++ aStr ++ " payment to " ++ cellStr k.1 ++ " appears " ++ natStr count ++ " times"
    severity := "Medium"
    records_affected := count }

/-- Source `AnomalyDetector.detect_duplicate_payments`: group the raw `(vendor,
amount)` pairs, keep groups of size `> 1`, and emit one anomaly per group.
Formatting the amount of an offending group raises (`Except.error`) when
that amount is not a number.  (pandas iterates groups in key-sorted order;
this embedding uses first-occurrence order, and no claim depends on the
order of the groups.) -/
def detect_duplicate_payments (df : Dataset) : Except Unit (List Anomaly) :=
  match getCol df "amount", getCol df "vendor" with
  | some am, some vn =>
    let pairs := dupPairs vn am
    let offending := pairs.dedup.filter (fun k => decide (1 < pairs.count k))
    offending.mapM (fun k => do
      let a ← fmtAmountCell k.2
      Except.ok (mkDupAnomaly k a (pairs.count k)))
  | _, _ => Except.ok []

/-- Source `AnomalyDetector.detect_amount_outliers`: IQR fences over the parsed
population, strict comparison, severity by magnitude against ten times the
median; one anomaly appended per outlier occurrence. -/
def detect_amount_outliers (df : Dataset) : List Anomaly :=
  match getCol df "amount" with
  | none => []
  | some am =>
    let amounts := parsePop am
    if amounts.isEmpty then [] else
    let q1 := quantileLin amounts (1 / 4)
    let q3 := quantileLin amounts (3 / 4)
    let iqr := q3 - q1
    let lower := q1 - 3 / 2 * iqr
    let upper := q3 + 3 / 2 * iqr
    let outliers := amounts.filter (fun a => decide (a < lower) || decide (upper < a))
    outliers.foldl
      (fun acc a =>
        acc ++ [{ atype := "Amount Outlier"
                  description := "Unusual amount: $" ++ formatMoney a
                  severity := if ratAbs a > quantileLin amounts (1 / 2) * 10 then "High" else "Medium"
                  records_affected := 1 }]) []

/-- Source `AnomalyDetector.detect_negative_amounts`: one Medium anomaly per parsed
value strictly below zero. -/
def detect_negative_amounts (df : Dataset) : List Anomaly :=
  match getCol df "amount" with
  | none => []
  | some am =>
    ((parsePop am).filter (fun a => decide (a < 0))).foldl
      (fun acc a =>
        acc ++ [{ atype := "Negative Amount"
                  description := "Negative transaction: $" ++ formatMoney a
                  severity := "Medium"
                  records_affected := 1 }]) []

/-! ### Summary statistics and the pipeline -/

/-- The `summary_stats` record. -/
structure SummaryStats where
  total_transactions : Nat
  total_amount : ℚ
  average_amount : ℚ
  median_amount : ℚ
  max_amount : ℚ
  min_amount : ℚ
deriving DecidableEq

/-- Maximum of a population (`0` for the empty list, which never occurs). -/
def listMax : List ℚ → ℚ
  | [] => 0
  | x :: xs => xs.foldl max x

/-- Minimum of a population. -/
def listMin : List ℚ → ℚ
  | [] => 0
  | x :: xs => xs.foldl min x

/-- The summary-statistics block of `analyze_data`: present only when the
amount column exists and its parsed population is non-empty; note that
`total_transactions` is `len(df)`, the raw row count. -/
def summary_stats (df : Dataset) : Option SummaryStats :=
  match getCol df "amount" with
  | none => none
  | some am =>
    let amounts := parsePop am
    if amounts.isEmpty then none else
    some { total_transactions := df.nRows
           total_amount := amounts.sum
           average_amount := amounts.sum / (amounts.length : ℚ)
           median_amount := quantileLin amounts (1 / 2)
           max_amount := listMax amounts
           min_amount := listMin amounts }

/-- The categories found in one column, in row order, with repetition
(`column_pii` before the `set()` collapse). -/
def columnCats (cells : List Cell) : List String :=
  cells.filterMap (fun v => (classify v).map catName)

/-- Report `results['pii_detected']` over a column list: one entry per column with
at least one hit, holding the distinct categories (`list(set(column_pii))`;
Python's set order is arbitrary, here first-collapse order). -/
def piiDetectedL (cols : List (String × List Cell)) : List (String × List String) :=
  cols.filterMap (fun p =>
    if (columnCats p.2).isEmpty then none else some (p.1, (columnCats p.2).dedup))

/-- Report `results['pii_detected']` of a dataset. -/
def piiDetected (df : Dataset) : List (String × List String) :=
  piiDetectedL df.cols

/-- Counter `results['pii_count']`: the number of redacted cells (occurrences, not
distinct categories). -/
def piiCount (df : Dataset) : Nat :=
  (df.cols.map (fun p => (columnCats p.2).length)).sum

/-- The dataset after the PII pass.  The source redacts `df` in place
(`df.loc[index, column] = …` while iterating), so this is both the
"redacted data" and the frame every later step reads. -/
def redactDataset (df : Dataset) : Dataset :=
  ⟨df.cols.map (fun p => (p.1, p.2.map processCell))⟩

deriving instance DecidableEq for Except

/-- The bundle returned by `analyze_data`. -/
structure AnalysisResult where
  pii_detected : List (String × List String)
  pii_count : Nat
  anomalies : List Anomaly
  summary_stats : Option SummaryStats
  redacted_data : Dataset
deriving DecidableEq

/-- Source `analyze_data`: PII pass first (mutating the frame), then the three
detectors and the summary statistics — all of which therefore read the
redacted frame, not the original.  A `ValueError` from the duplicate
detector's formatting propagates out. -/
def analyze_data (df : Dataset) : Except Unit AnalysisResult :=
  let red := redactDataset df
  match detect_duplicate_payments red with
  | .error e => .error e
  | .ok dups =>
    .ok { pii_detected := piiDetected df
          pii_count := piiCount df
          anomalies := dups ++ detect_amount_outliers red ++ detect_negative_amounts red
          summary_stats := summary_stats red
          redacted_data := red }

/-! ## General lemmas -/

set_option maxRecDepth 40000

lemma foldl_max_init_le (xs : List ℚ) : ∀ x : ℚ, x ≤ xs.foldl max x := by
  induction xs with
  | nil => intro x; simp
  | cons a t ih =>
    intro x
    simp only [List.foldl_cons]
    exact le_trans (le_max_left x a) (ih (max x a))

lemma le_foldl_max (xs : List ℚ) : ∀ x y : ℚ, y ∈ x :: xs → y ≤ xs.foldl max x := by
  induction xs with
  | nil =>
    intro x y hy
    simp at hy
    simp [hy]
  | cons a t ih =>
    intro x y hy
    simp only [List.foldl_cons]
    rcases List.mem_cons.mp hy with h | h
    · subst h
      exact le_trans (le_max_left y a) (foldl_max_init_le t (max y a))
    · rcases List.mem_cons.mp h with h2 | h2
      · subst h2
        exact le_trans (le_max_right x y) (foldl_max_init_le t (max x y))
      · exact ih (max x a) y (List.mem_cons_of_mem _ h2)

lemma foldl_max_mem (xs : List ℚ) : ∀ x : ℚ, xs.foldl max x ∈ x :: xs := by
  induction xs with
  | nil => intro x; simp
  | cons a t ih =>
    intro x
    simp only [List.foldl_cons]
    rcases List.mem_cons.mp (ih (max x a)) with h | h
    · rcases max_choice x a with hx | hx
      · rw [h, hx]; exact List.mem_cons_self _ _
      · rw [h, hx]; exact List.mem_cons_of_mem _ (List.mem_cons_self _ _)
    · exact List.mem_cons_of_mem _ (List.mem_cons_of_mem _ h)

lemma foldl_min_init_le (xs : List ℚ) : ∀ x : ℚ, xs.foldl min x ≤ x := by
  induction xs with
  | nil => intro x; simp
  | cons a t ih =>
    intro x
    simp only [List.foldl_cons]
    exact le_trans (ih (min x a)) (min_le_left x a)

lemma foldl_min_le (xs : List ℚ) : ∀ x y : ℚ, y ∈ x :: xs → xs.foldl min x ≤ y := by
  induction xs with
  | nil =>
    intro x y hy
    simp at hy
    simp [hy]
  | cons a t ih =>
    intro x y hy
    simp only [List.foldl_cons]
    rcases List.mem_cons.mp hy with h | h
    · subst h
      exact le_trans (foldl_min_init_le t (min y a)) (min_le_left y a)
    · rcases List.mem_cons.mp h with h2 | h2
      · subst h2
        exact le_trans (foldl_min_init_le t (min x y)) (min_le_right x y)
      · exact ih (min x a) y (List.mem_cons_of_mem _ h2)

lemma foldl_min_mem (xs : List ℚ) : ∀ x : ℚ, xs.foldl min x ∈ x :: xs := by
  induction xs with
  | nil => intro x; simp
  | cons a t ih =>
    intro x
    simp only [List.foldl_cons]
    rcases List.mem_cons.mp (ih (min x a)) with h | h
    · rcases min_choice x a with hx | hx
      · rw [h, hx]; exact List.mem_cons_self _ _
      · rw [h, hx]; exact List.mem_cons_of_mem _ (List.mem_cons_self _ _)
    · exact List.mem_cons_of_mem _ (List.mem_cons_of_mem _ h)

lemma listMax_mem (l : List ℚ) (h : l ≠ []) : listMax l ∈ l := by
  cases l with
  | nil => exact absurd rfl h
  | cons x xs => exact foldl_max_mem xs x

lemma le_listMax (l : List ℚ) (y : ℚ) (hy : y ∈ l) : y ≤ listMax l := by
  cases l with
  | nil => simp at hy
  | cons x xs => exact le_foldl_max xs x y hy

lemma listMin_mem (l : List ℚ) (h : l ≠ []) : listMin l ∈ l := by
  cases l with
  | nil => exact absurd rfl h
  | cons x xs => exact foldl_min_mem xs x

lemma listMin_le (l : List ℚ) (y : ℚ) (hy : y ∈ l) : listMin l ≤ y := by
  cases l with
  | nil => simp at hy
  | cons x xs => exact foldl_min_le xs x y hy

/-- Linear-interpolation quantile as the spec words it: with `h = q·(n-1)`
split into its integer part `i` and fractional weight `w`, the quantile is
the convex combination `(1-w)·s[i] + w·s[i+1]` of the two adjacent sorted
values (the last value standing in for `s[i+1]` at the top end).  This is
the definition the refinement theorem for the outlier detector compares the
code against. -/
def quantileLinSpec (l : List ℚ) (q : ℚ) : ℚ :=
  let s := sortQ l
  let h : ℚ := q * ((s.length : ℚ) - 1)
  let i : Nat := h.floor.toNat
  let w : ℚ := h - (h.floor : ℚ)
  (1 - w) * s.getD i 0 + w * s.getD (min (i + 1) (s.length - 1)) (s.getD i 0)

lemma quantileLin_eq_spec (l : List ℚ) (q : ℚ) :
    quantileLin l q = quantileLinSpec l q := by
  unfold quantileLin quantileLinSpec
  by_cases hn : (sortQ l).length = 0
  · simp [hn]
    rw [List.eq_nil_of_length_eq_zero hn]
    simp
  · simp only [hn, if_false]
    ring

lemma foldl_append_singleton_eq_map {α β : Type} (f : α → β) (l : List α) :
    ∀ init : List β, l.foldl (fun acc a => acc ++ [f a]) init = init ++ l.map f := by
  induction l with
  | nil => intro init; simp
  | cons a t ih =>
    intro init
    simp only [List.foldl_cons, List.map_cons]
    rw [ih (init ++ [f a])]
    simp

/-! ## C3: classification order -/

/-- C3: PII classification tests the categories in the fixed order SSN,
Phone, Email, AccountNumber and assigns the first whose pattern matches;
once a category matches, no later detector influences the outcome, and a
cell matching no category is left unchanged by the PII pass. -/
theorem C3_classification_first_match (v : Cell) :
    (classify v = some PIICat.ssn ↔ detect_ssn v = true) ∧
    (classify v = some PIICat.phone ↔ (detect_ssn v = false ∧ detect_phone v = true)) ∧
    (classify v = some PIICat.email ↔
      (detect_ssn v = false ∧ detect_phone v = false ∧ detect_email v = true)) ∧
    (classify v = some PIICat.account ↔
      (detect_ssn v = false ∧ detect_phone v = false ∧ detect_email v = false ∧
        detect_account_number v = true)) ∧
    (classify v = none ↔
      (detect_ssn v = false ∧ detect_phone v = false ∧ detect_email v = false ∧
        detect_account_number v = false)) ∧
    (classify v = none → processCell v = v) := by
  cases h1 : detect_ssn v <;> cases h2 : detect_phone v <;>
    cases h3 : detect_email v <;> cases h4 : detect_account_number v <;>
    simp [classify, processCell, h1, h2, h3, h4]

/-! ## C2: summary statistics -/

/-- C2 counterexample: on `amount = ["5", "x"]` the parsed population has one
member but `total_transactions` is `len(df) = 2`, so the count is not the
size of the parsed numeric population. -/
theorem C2_total_transactions_cex :
    (summary_stats ⟨[("amount", [Cell.str "5", Cell.str "x"])]⟩).map
        SummaryStats.total_transactions = some 2 ∧
    (parsePop [Cell.str "5", Cell.str "x"]).length = 1 ∧
    (summary_stats ⟨[("amount", [Cell.str "5", Cell.str "x"])]⟩).map
        SummaryStats.total_transactions ≠
      some ((parsePop [Cell.str "5", Cell.str "x"]).length) := by
  with_unfolding_all decide

/-- C2 (amended): with an amount column present, SummaryStats is produced iff
at least one amount cell parses as a number; sum, mean, median, max and min
are over the parsed population, but the transaction count is the raw row
count `len(df)`, not the size of the parsed population. -/
theorem C2_summary_stats_characterization (df : Dataset) (am : List Cell)
    (ham : getCol df "amount" = some am) :
    ((summary_stats df).isSome ↔ parsePop am ≠ []) ∧
    ∀ st, summary_stats df = some st →
      st.total_transactions = df.nRows ∧
      st.total_amount = (parsePop am).sum ∧
      st.average_amount = (parsePop am).sum / ((parsePop am).length : ℚ) ∧
      st.median_amount = quantileLinSpec (parsePop am) (1 / 2) ∧
      st.max_amount ∈ parsePop am ∧ (∀ y ∈ parsePop am, y ≤ st.max_amount) ∧
      st.min_amount ∈ parsePop am ∧ (∀ y ∈ parsePop am, st.min_amount ≤ y) := by
  unfold summary_stats
  rw [ham]
  by_cases hp : (parsePop am).isEmpty
  · simp [hp, List.isEmpty_iff.mp hp]
  · have hne : parsePop am ≠ [] := by
      intro h
      rw [h] at hp
      exact hp rfl
    simp only [hp, Bool.false_eq_true, if_false]
    refine ⟨by simp [hne], ?_⟩
    intro st hst
    obtain rfl : _ = st := Option.some_injective _ hst
    refine ⟨rfl, rfl, rfl, quantileLin_eq_spec _ _, listMax_mem _ hne,
      fun y hy => le_listMax _ y hy, listMin_mem _ hne, fun y hy => listMin_le _ y hy⟩

/-- C2 witness: the characterization applied to the concrete dataset with
amount column `[3, "x"]`. -/
theorem C2_summary_stats_witness :
    (summary_stats ⟨[("amount", [Cell.num 3, Cell.str "x"])]⟩).isSome ↔
      parsePop [Cell.num 3, Cell.str "x"] ≠ [] :=
  (C2_summary_stats_characterization ⟨[("amount", [Cell.num 3, Cell.str "x"])]⟩
    [Cell.num 3, Cell.str "x"] rfl).1

/-! ## C6: the outlier detector -/

lemma ratAbs_eq_abs (q : ℚ) : ratAbs q = |q| := by
  unfold ratAbs
  rcases lt_or_le q 0 with h | h
  · rw [if_pos h, abs_of_neg h]
  · rw [if_neg (not_lt.mpr h), abs_of_nonneg h]

lemma isEmpty_false_of_ne_nil {α : Type} {l : List α} (h : l ≠ []) :
    l.isEmpty = false := by
  cases l with
  | nil => exact absurd rfl h
  | cons a t => rfl

/-- C6: with a non-empty parsed population, the outlier detector flags
exactly the values strictly outside the linear-interpolation IQR fences
`[Q1 − 1.5·IQR, Q3 + 1.5·IQR]`, emits one Anomaly per outlier occurrence
with `records_affected = 1`, and grades a value High exactly when its
absolute magnitude exceeds ten times the population median. -/
theorem C6_outlier_characterization (df : Dataset) (am : List Cell)
    (ham : getCol df "amount" = some am) (hne : parsePop am ≠ []) :
    detect_amount_outliers df =
      ((parsePop am).filter (fun a =>
          decide (a < quantileLinSpec (parsePop am) (1 / 4) -
              3 / 2 * (quantileLinSpec (parsePop am) (3 / 4) -
                quantileLinSpec (parsePop am) (1 / 4))) ||
          decide (quantileLinSpec (parsePop am) (3 / 4) +
              3 / 2 * (quantileLinSpec (parsePop am) (3 / 4) -
                quantileLinSpec (parsePop am) (1 / 4)) < a))).map
        (fun a =>
          { atype := "Amount Outlier"
            description := "Unusual amount: $" ++ formatMoney a
            severity :=
              if |a| > quantileLinSpec (parsePop am) (1 / 2) * 10 then "High" else "Medium"
            records_affected := 1 }) := by
  unfold detect_amount_outliers
  rw [ham]
  simp only [isEmpty_false_of_ne_nil hne, Bool.false_eq_true, if_false]
  rw [foldl_append_singleton_eq_map]
  simp only [List.nil_append, quantileLin_eq_spec, ratAbs_eq_abs]

/-- C6 witness: on the population `[1, 1, 1, 1, 100]` the fences are `[1, 1]`
and the single outlier `100` is High (its magnitude exceeds ten times the
median `1`). -/
theorem C6_outlier_witness :
    detect_amount_outliers
        ⟨[("amount", [Cell.num 1, Cell.num 1, Cell.num 1, Cell.num 1, Cell.num 100])]⟩ =
      [{ atype := "Amount Outlier", description := "Unusual amount: $100.00",
         severity := "High", records_affected := 1 }] := by
  rw [C6_outlier_characterization
    ⟨[("amount", [Cell.num 1, Cell.num 1, Cell.num 1, Cell.num 1, Cell.num 100])]⟩
    [Cell.num 1, Cell.num 1, Cell.num 1, Cell.num 1, Cell.num 100]
    rfl (by with_unfolding_all decide)]
  with_unfolding_all decide

/-! ## C8: missing columns and unparseable cells -/

/-- Numeric fields of the summary statistics (everything except the raw row
count). -/
def statNums (st : SummaryStats) : ℚ × ℚ × ℚ × ℚ × ℚ :=
  (st.total_amount, st.average_amount, st.median_amount, st.max_amount, st.min_amount)

lemma parsePop_skip (c : Cell) (hc : parseCell c = none) (pre post : List Cell) :
    parsePop (pre ++ c :: post) = parsePop (pre ++ post) := by
  unfold parsePop
  rw [List.filterMap_append, List.filterMap_append, List.filterMap_cons, hc]

lemma getCol_single (nm : String) (cells : List Cell) :
    getCol ⟨[(nm, cells)]⟩ nm = some cells := by
  simp [getCol, List.lookup]

/-- C8 counterexample: a duplicated unparseable amount makes the duplicate
detector format a string with `:,.2f`, which raises — the pipeline errors
instead of excluding the cell. -/
theorem C8_unparseable_error_cex :
    detect_duplicate_payments
        ⟨[("vendor", [Cell.str "A", Cell.str "A"]),
          ("amount", [Cell.str "abc", Cell.str "abc"])]⟩ = Except.error () ∧
    analyze_data
        ⟨[("vendor", [Cell.str "A", Cell.str "A"]),
          ("amount", [Cell.str "abc", Cell.str "abc"])]⟩ = Except.error () ∧
    parseCell (Cell.str "abc") = none := by
  with_unfolding_all decide

/-- C8 (amended): a missing amount or vendor column makes every detector and
statistic that needs it return empty results without error, and an
unparseable amount cell is excluded from the numeric population of the
outlier detector, the negative-amount detector and the summary statistics
(it changes nothing but the raw row count); the duplicate-payment detector,
however, groups raw unparsed values and raises a formatting error when a
duplicated group's amount is a non-numeric string. -/
theorem C8_missing_and_unparseable :
    (∀ df : Dataset, getCol df "amount" = none →
      detect_amount_outliers df = [] ∧ detect_negative_amounts df = [] ∧
      summary_stats df = none ∧ detect_duplicate_payments df = Except.ok []) ∧
    (∀ df : Dataset, getCol df "vendor" = none →
      detect_duplicate_payments df = Except.ok []) ∧
    (∀ c : Cell, parseCell c = none → ∀ pre post : List Cell,
      detect_amount_outliers ⟨[("amount", pre ++ c :: post)]⟩ =
        detect_amount_outliers ⟨[("amount", pre ++ post)]⟩ ∧
      detect_negative_amounts ⟨[("amount", pre ++ c :: post)]⟩ =
        detect_negative_amounts ⟨[("amount", pre ++ post)]⟩ ∧
      (summary_stats ⟨[("amount", pre ++ c :: post)]⟩).map statNums =
        (summary_stats ⟨[("amount", pre ++ post)]⟩).map statNums ∧
      ((summary_stats ⟨[("amount", pre ++ c :: post)]⟩).isSome ↔
        (summary_stats ⟨[("amount", pre ++ post)]⟩).isSome)) := by
  refine ⟨?_, ?_, ?_⟩
  · intro df h
    refine ⟨?_, ?_, ?_, ?_⟩
    · unfold detect_amount_outliers; rw [h]
    · unfold detect_negative_amounts; rw [h]
    · unfold summary_stats; rw [h]
    · unfold detect_duplicate_payments; rw [h]
  · intro df h
    unfold detect_duplicate_payments
    rw [h]
    cases getCol df "amount" <;> rfl
  · intro c hc pre post
    have hpop := parsePop_skip c hc pre post
    refine ⟨?_, ?_, ?_, ?_⟩
    · unfold detect_amount_outliers
      rw [getCol_single, getCol_single]
      simp only [hpop]
    · unfold detect_negative_amounts
      rw [getCol_single, getCol_single]
      simp only [hpop]
    · unfold summary_stats
      rw [getCol_single, getCol_single]
      simp only [hpop]
      by_cases hp : (parsePop (pre ++ post)).isEmpty <;> simp [hp, statNums]
    · unfold summary_stats
      rw [getCol_single, getCol_single]
      simp only [hpop]
      by_cases hp : (parsePop (pre ++ post)).isEmpty <;> simp [hp]

/-! ## C7: the duplicate-payment detector -/

lemma except_mapM_ok_forall {α β : Type} (f : α → Except Unit β) :
    ∀ (l : List α) (res : List β), l.mapM f = Except.ok res →
      ∀ x ∈ l, ∃ y, f x = Except.ok y := by
  intro l
  induction l with
  | nil => intro res _ x hx; simp at hx
  | cons a t ih =>
    intro res h x hx
    rw [List.mapM_cons] at h
    cases ha : f a with
    | error e => rw [ha] at h; simp [Bind.bind, Except.bind] at h
    | ok y =>
      rw [ha] at h
      cases ht : t.mapM f with
      | error e =>
        rw [ht] at h
        simp [Bind.bind, Except.bind] at h
      | ok ys =>
        rw [ht] at h
        rcases List.mem_cons.mp hx with rfl | hx2
        · exact ⟨y, ha⟩
        · exact ih ys ht x hx2

lemma except_mapM_ok_map {α β : Type} (f : α → Except Unit β) (g : α → β) :
    ∀ (l : List α) (res : List β), l.mapM f = Except.ok res →
      (∀ x ∈ l, f x = Except.ok (g x)) → res = l.map g := by
  intro l
  induction l with
  | nil =>
    intro res h _
    rw [List.mapM_nil] at h
    simp only [pure, Except.pure, Except.ok.injEq] at h
    exact h.symm
  | cons a t ih =>
    intro res h hg
    rw [List.mapM_cons, hg a (List.mem_cons_self a t)] at h
    cases ht : t.mapM f with
    | error e =>
      rw [ht] at h
      simp [Bind.bind, Except.bind] at h
    | ok ys =>
      rw [ht] at h
      simp only [Bind.bind, Except.bind, pure, Except.pure, Except.ok.injEq] at h
      rw [List.map_cons, ← h,
        ih ys ht (fun x hx => hg x (List.mem_cons_of_mem a hx))]

lemma except_mapM_ok_mem {α β : Type} (f : α → Except Unit β) :
    ∀ (l : List α) (res : List β), l.mapM f = Except.ok res →
      ∀ y ∈ res, ∃ x ∈ l, f x = Except.ok y := by
  intro l
  induction l with
  | nil =>
    intro res h y hy
    rw [List.mapM_nil] at h
    simp only [pure, Except.pure, Except.ok.injEq] at h
    rw [← h] at hy
    simp at hy
  | cons a t ih =>
    intro res h y hy
    rw [List.mapM_cons] at h
    cases ha : f a with
    | error e => rw [ha] at h; simp [Bind.bind, Except.bind] at h
    | ok z =>
      rw [ha] at h
      cases ht : t.mapM f with
      | error e =>
        rw [ht] at h
        simp [Bind.bind, Except.bind] at h
      | ok ys =>
        rw [ht] at h
        simp only [Bind.bind, Except.bind, pure, Except.pure, Except.ok.injEq] at h
        rw [← h] at hy
        rcases List.mem_cons.mp hy with rfl | hy2
        · exact ⟨a, List.mem_cons_self a t, ha⟩
        · obtain ⟨x, hx, hfx⟩ := ih ys ht y hy2
          exact ⟨x, List.mem_cons_of_mem a hx, hfx⟩

/-- Total rendering of an offending amount (only ever read on `num` cells,
where it matches `fmtAmountCell`). -/
def fmtAmountD : Cell → String
  | .num q => formatMoney q
  | _ => ""

lemma fmtAmountCell_ok {c : Cell} {s : String} (h : fmtAmountCell c = Except.ok s) :
    (∃ q : ℚ, c = Cell.num q) ∧ s = fmtAmountD c := by
  cases c with
  | na => simp [fmtAmountCell] at h
  | str t => simp [fmtAmountCell] at h
  | num q =>
    refine ⟨⟨q, rfl⟩, ?_⟩
    simp [fmtAmountCell] at h
    simp [fmtAmountD, h]

/-- C7: on a dataset with vendor and amount columns where the detector
succeeds, the result is exactly one anomaly per distinct `(vendor, amount)`
pair occurring more than once: `records_affected` is the group size,
severity Medium, and the description is the amount formatted as currency
with two decimals, the vendor name, and the occurrence count.  Groups of
size one yield nothing (every emitted anomaly has `records_affected > 1`). -/
theorem C7_duplicates_characterization (df : Dataset) (am vn : List Cell)
    (ham : getCol df "amount" = some am) (hvn : getCol df "vendor" = some vn)
    (res : List Anomaly) (hres : detect_duplicate_payments df = Except.ok res) :
    res = ((dupPairs vn am).dedup.filter
            (fun k => decide (1 < (dupPairs vn am).count k))).map
        (fun k => mkDupAnomaly k (fmtAmountD k.2) ((dupPairs vn am).count k)) ∧
    (∀ a ∈ res, ∃ k, k ∈ (dupPairs vn am).dedup ∧ 1 < (dupPairs vn am).count k ∧
      (∃ q : ℚ, k.2 = Cell.num q) ∧
      a.description = "$" ++ fmtAmountD k.2 ++ " payment to " ++ cellStr k.1 ++
        " appears " ++ natStr ((dupPairs vn am).count k) ++ " times" ∧
      a.severity = "Medium" ∧
      a.records_affected = (dupPairs vn am).count k) ∧
    (∀ k : Cell × Cell, 1 < (dupPairs vn am).count k →
      mkDupAnomaly k (fmtAmountD k.2) ((dupPairs vn am).count k) ∈ res) := by
  unfold detect_duplicate_payments at hres
  rw [ham, hvn] at hres
  have hall := except_mapM_ok_forall _ _ _ hres
  have hnum : ∀ k ∈ (dupPairs vn am).dedup.filter
      (fun k => decide (1 < (dupPairs vn am).count k)), ∃ q : ℚ, k.2 = Cell.num q := by
    intro k hk
    obtain ⟨y, hy⟩ := hall k hk
    cases hf : fmtAmountCell k.2 with
    | error e =>
      rw [hf] at hy
      simp [Bind.bind, Except.bind] at hy
    | ok s =>
      obtain ⟨⟨q, hq⟩, _⟩ := fmtAmountCell_ok hf
      exact ⟨q, hq⟩
  have hmap := except_mapM_ok_map _
    (fun k => mkDupAnomaly k (fmtAmountD k.2) ((dupPairs vn am).count k)) _ _ hres ?_
  · refine ⟨hmap, ?_, ?_⟩
    · intro a ha
      rw [hmap] at ha
      obtain ⟨k, hk, hak⟩ := List.mem_map.mp ha
      have hkd := List.mem_filter.mp hk
      refine ⟨k, hkd.1, of_decide_eq_true hkd.2, hnum k hk, ?_, ?_, ?_⟩ <;>
        rw [← hak] <;> rfl
    · intro k hcnt
      rw [hmap]
      apply List.mem_map_of_mem
      apply List.mem_filter.mpr
      refine ⟨List.mem_dedup.mpr ?_, decide_eq_true hcnt⟩
      exact List.count_pos_iff.mp (Nat.lt_of_lt_of_le Nat.zero_lt_one (Nat.le_of_lt hcnt))
  · intro k hk
    obtain ⟨q, hq⟩ := hnum k hk
    simp only [Bind.bind, Except.bind, hq, fmtAmountCell, fmtAmountD, pure, Except.pure]

/-- C7 witness: `(A, 100)` twice and `(B, 5)` once yield exactly the one
expected anomaly. -/
theorem C7_duplicates_witness :
    [({ atype := "Duplicate Payment",
        description := "$100.00 payment to A appears 2 times",
        severity := "Medium", records_affected := 2 } : Anomaly)] =
      ((dupPairs [Cell.str "A", Cell.str "A", Cell.str "B"]
            [Cell.num 100, Cell.num 100, Cell.num 5]).dedup.filter
          (fun k => decide (1 < (dupPairs [Cell.str "A", Cell.str "A", Cell.str "B"]
            [Cell.num 100, Cell.num 100, Cell.num 5]).count k))).map
        (fun k => mkDupAnomaly k (fmtAmountD k.2)
          ((dupPairs [Cell.str "A", Cell.str "A", Cell.str "B"]
            [Cell.num 100, Cell.num 100, Cell.num 5]).count k)) :=
  (C7_duplicates_characterization
    ⟨[("vendor", [Cell.str "A", Cell.str "A", Cell.str "B"]),
      ("amount", [Cell.num 100, Cell.num 100, Cell.num 5])]⟩
    [Cell.num 100, Cell.num 100, Cell.num 5]
    [Cell.str "A", Cell.str "A", Cell.str "B"]
    (by with_unfolding_all decide) (by with_unfolding_all decide)
    [{ atype := "Duplicate Payment",
       description := "$100.00 payment to A appears 2 times",
       severity := "Medium", records_affected := 2 }]
    (by with_unfolding_all decide)).1

/-! ## C10: severities -/

lemma outliers_severity (df : Dataset) :
    ∀ a ∈ detect_amount_outliers df, a.severity = "High" ∨ a.severity = "Medium" := by
  intro a ha
  unfold detect_amount_outliers at ha
  cases h : getCol df "amount" with
  | none => rw [h] at ha; simp at ha
  | some am =>
    rw [h] at ha
    by_cases hp : (parsePop am).isEmpty
    · simp [hp] at ha
    · simp only [hp, Bool.false_eq_true, if_false] at ha
      rw [foldl_append_singleton_eq_map] at ha
      simp only [List.nil_append] at ha
      obtain ⟨x, _, hax⟩ := List.mem_map.mp ha
      rw [← hax]
      by_cases hs : ratAbs x > quantileLin (parsePop am) (1 / 2) * 10
      · exact Or.inl (if_pos hs)
      · exact Or.inr (if_neg hs)

lemma negatives_severity (df : Dataset) :
    ∀ a ∈ detect_negative_amounts df, a.severity = "Medium" := by
  intro a ha
  unfold detect_negative_amounts at ha
  split at ha
  · simp at ha
  · rw [foldl_append_singleton_eq_map] at ha
    simp only [List.nil_append] at ha
    obtain ⟨x, _, hax⟩ := List.mem_map.mp ha
    rw [← hax]

lemma dup_severity (df : Dataset) (res : List Anomaly)
    (h : detect_duplicate_payments df = Except.ok res) :
    ∀ a ∈ res, a.severity = "Medium" := by
  intro a ha
  unfold detect_duplicate_payments at h
  cases h1 : getCol df "amount" with
  | none =>
    rw [h1] at h
    cases h2 : getCol df "vendor" with
    | none =>
      rw [h2] at h
      simp only [Except.ok.injEq] at h
      rw [← h] at ha
      simp at ha
    | some vn =>
      rw [h2] at h
      simp only [Except.ok.injEq] at h
      rw [← h] at ha
      simp at ha
  | some am =>
    rw [h1] at h
    cases h2 : getCol df "vendor" with
    | none =>
      rw [h2] at h
      simp only [Except.ok.injEq] at h
      rw [← h] at ha
      simp at ha
    | some vn =>
      rw [h2] at h
      obtain ⟨k, _, hfk⟩ := except_mapM_ok_mem _ _ _ h a ha
      cases hf : fmtAmountCell k.2 with
      | error e =>
        rw [hf] at hfk
        simp [Bind.bind, Except.bind] at hfk
      | ok s =>
        rw [hf] at hfk
        simp only [Bind.bind, Except.bind, Except.ok.injEq] at hfk
        rw [← hfk]
        rfl

/-- C10: every anomaly any detector emits is High or Medium; severity Low is
never produced by a successful run of the pipeline. -/
theorem C10_severity_never_low (df : Dataset) (r : AnalysisResult)
    (h : analyze_data df = Except.ok r) :
    ∀ a ∈ r.anomalies, a.severity = "High" ∨ a.severity = "Medium" := by
  unfold analyze_data at h
  simp only [] at h
  split at h
  · simp at h
  · next dups hd =>
    simp only [Except.ok.injEq] at h
    subst h
    intro a ha
    simp only [List.mem_append] at ha
    rcases ha with (hd2 | ho) | hn
    · exact Or.inr (dup_severity _ _ hd a hd2)
    · exact outliers_severity _ a ho
    · exact Or.inr (negatives_severity _ a hn)

/-- Concrete dataset for the C10 witness. -/
def dfC10 : Dataset := ⟨[("amount", [Cell.num (-5), Cell.num 1])]⟩

/-- What `analyze_data` returns on `dfC10`. -/
def resC10 : AnalysisResult :=
  { pii_detected := []
    pii_count := 0
    anomalies := [{ atype := "Negative Amount",
                    description := "Negative transaction: $-5.00",
                    severity := "Medium", records_affected := 1 }]
    summary_stats := some { total_transactions := 2, total_amount := -4,
                            average_amount := -2, median_amount := -2,
                            max_amount := 1, min_amount := -5 }
    redacted_data := dfC10 }

/-- C10 witness: the severity bound applied to the negative-amount anomaly of
a concrete run. -/
theorem C10_severity_witness :
    ({ atype := "Negative Amount", description := "Negative transaction: $-5.00",
       severity := "Medium", records_affected := 1 } : Anomaly).severity = "High" ∨
    ({ atype := "Negative Amount", description := "Negative transaction: $-5.00",
       severity := "Medium", records_affected := 1 } : Anomaly).severity = "Medium" :=
  C10_severity_never_low dfC10 resC10 (by with_unfolding_all decide) _
    (by with_unfolding_all decide)

/-! ## C9: the PII report -/

/-- C9: every PIIReport entry is the duplicate-collapsed set of the
categories observed in its column (an entry exists only when the column has
at least one hit), and the number of category entries summed over the report
is at most the total redaction count. -/
theorem C9_report_distinct_and_bounded (df : Dataset) :
    (∀ n l, (n, l) ∈ piiDetected df →
      ∃ cells, (n, cells) ∈ df.cols ∧ l = (columnCats cells).dedup ∧ l.Nodup ∧
        (∀ s, s ∈ l ↔ s ∈ columnCats cells) ∧ columnCats cells ≠ []) ∧
    ((piiDetected df).map (fun p => p.2.length)).sum ≤ piiCount df := by
  constructor
  · intro n l h
    unfold piiDetected piiDetectedL at h
    obtain ⟨p, hp, he⟩ := List.mem_filterMap.mp h
    by_cases hc : (columnCats p.2).isEmpty
    · simp [hc] at he
    · simp only [hc, Bool.false_eq_true, if_false, Option.some.injEq, Prod.mk.injEq] at he
      obtain ⟨rfl, rfl⟩ := he
      refine ⟨p.2, hp, rfl, List.nodup_dedup _, fun s => List.mem_dedup, ?_⟩
      intro hnil
      rw [hnil] at hc
      exact hc rfl
  · unfold piiDetected piiDetectedL piiCount
    induction df.cols with
    | nil => simp
    | cons p t ih =>
      rw [List.filterMap_cons, List.map_cons, List.sum_cons]
      by_cases hc : (columnCats p.2).isEmpty
      · simp only [hc, if_true]
        exact le_trans ih (Nat.le_add_left _ _)
      · simp only [hc, Bool.false_eq_true, if_false, List.map_cons, List.sum_cons]
        exact Nat.add_le_add (List.Sublist.length_le (List.dedup_sublist _)) ih

/-- C9 witness: two email cells in one column give one distinct category but
two redactions. -/
theorem C9_report_witness :
    ((piiDetected ⟨[("contact", [Cell.str "a@b.com", Cell.str "x@y.org"])]⟩).map
        (fun p => p.2.length)).sum ≤
      piiCount ⟨[("contact", [Cell.str "a@b.com", Cell.str "x@y.org"])]⟩ :=
  (C9_report_distinct_and_bounded
    ⟨[("contact", [Cell.str "a@b.com", Cell.str "x@y.org"])]⟩).2

/-! ## C1: the pipeline reads the frame it redacts -/

/-- C1: on the dataset whose single amount cell is the text `12345678`, the
PII pass redacts the cell in place, and the detectors and summary statistics
— which run afterwards on the same frame — see an empty numeric population:
no statistics and no anomalies are produced, although the original column
parses to a non-empty one-member population.  The input is therefore not
preserved for the anomaly pass. -/
theorem C1_pipeline_reads_redacted_frame :
    analyze_data ⟨[("amount", [Cell.str "12345678"])]⟩ =
      Except.ok { pii_detected := [("amount", ["Account Number"])]
                  pii_count := 1
                  anomalies := []
                  summary_stats := none
                  redacted_data := ⟨[("amount", [Cell.str "XXXXXXXX"])]⟩ } ∧
    parsePop [Cell.str "12345678"] ≠ [] ∧
    (parsePop [Cell.str "12345678"]).length = 1 := by
  with_unfolding_all decide

/-! ## Matcher inversion lemmas -/

lemma isDigit_isWordChar {c : Char} (h : c.isDigit = true) : isWordChar c = true := by
  simp [isWordChar, h]

lemma not_word_not_digit {c : Char} (h : isWordChar c = false) : c.isDigit = false := by
  by_cases hd : c.isDigit
  · rw [isDigit_isWordChar hd] at h
    exact absurd h (by simp)
  · simpa using hd

lemma exactDigits_split :
    ∀ (n : Nat) (s m r : List Char), exactDigits n s = some (m, r) →
      s = m ++ r ∧ m.length = n ∧ ∀ c ∈ m, c.isDigit = true := by
  intro n
  induction n with
  | zero =>
    intro s m r h
    simp only [exactDigits, Option.some.injEq, Prod.mk.injEq] at h
    obtain ⟨rfl, rfl⟩ := h
    simp
  | succ n ih =>
    intro s m r h
    cases s with
    | nil => simp [exactDigits] at h
    | cons c cs =>
      by_cases hc : c.isDigit
      · simp only [exactDigits, hc, if_true, Option.map_eq_some'] at h
        obtain ⟨q, hq, he⟩ := h
        obtain ⟨rfl, rfl⟩ := Prod.mk.injEq .. |>.mp he
        obtain ⟨hs, hl, hd⟩ := ih cs q.1 q.2 hq
        refine ⟨by rw [hs]; rfl, by simp [hl], ?_⟩
        intro x hx
        rcases List.mem_cons.mp hx with rfl | hx2
        · exact hc
        · exact hd x hx2
      · simp [exactDigits, hc] at h

lemma exactDigits_of_digits :
    ∀ (m u : List Char), (∀ c ∈ m, c.isDigit = true) →
      exactDigits m.length (m ++ u) = some (m, u) := by
  intro m
  induction m with
  | nil => intro u _; rfl
  | cons c t ih =>
    intro u hd
    simp only [List.length_cons, List.cons_append, exactDigits,
      hd c (List.mem_cons_self c t), if_true, List.append_eq,
      ih u (fun x hx => hd x (List.mem_cons_of_mem c hx)), Option.map_some']

lemma exactDigits_none_of_head (n : Nat) (u : List Char)
    (h : wordOpt u.head? = false) : exactDigits (n + 1) u = none := by
  cases u with
  | nil => rfl
  | cons c cs =>
    simp only [List.head?_cons, wordOpt] at h
    simp [exactDigits, not_word_not_digit h]

lemma optChar_split (p : Char → Bool) (s : List Char) :
    s = (optChar p s).1 ++ (optChar p s).2 ∧
    ((optChar p s).1 = [] ∨ ∃ c, (optChar p s).1 = [c] ∧ p c = true) := by
  cases s with
  | nil => simp [optChar]
  | cons c cs =>
    by_cases h : p c
    · simp [optChar, h]
    · simp [optChar, h]

lemma optChar_pos {p : Char → Bool} {c : Char} (cs : List Char) (h : p c = true) :
    optChar p (c :: cs) = ([c], cs) := by
  simp [optChar, h]

lemma optChar_neg {p : Char → Bool} {c : Char} (cs : List Char) (h : p c = false) :
    optChar p (c :: cs) = ([], c :: cs) := by
  simp [optChar, h]

lemma bool_eq_false_of_not {b : Bool} (h : ¬ b = true) : b = false := by
  cases b
  · rfl
  · exact absurd rfl h

/-- Shape of an SSN match: `\d{3} -? \d{2} -? \d{4}`. -/
def SsnShape (m : List Char) : Prop :=
  ∃ d3 o1 d2 o2 d4 : List Char, m = d3 ++ o1 ++ d2 ++ o2 ++ d4 ∧
    d3.length = 3 ∧ d2.length = 2 ∧ d4.length = 4 ∧
    (∀ c ∈ d3, c.isDigit = true) ∧ (∀ c ∈ d2, c.isDigit = true) ∧
    (∀ c ∈ d4, c.isDigit = true) ∧
    (o1 = [] ∨ o1 = ['-']) ∧ (o2 = [] ∨ o2 = ['-'])

lemma ssnMatch_inv {p : Option Char} {s m r : List Char}
    (h : ssnMatch p s = some (m, r)) :
    wordOpt p = false ∧ wordOpt r.head? = false ∧ s = m ++ r ∧ SsnShape m := by
  unfold ssnMatch at h
  split at h
  · simp at h
  · next hp =>
    simp only [Option.bind_eq_some] at h
    obtain ⟨q3, h3, q2, h2, q4, h4, hfin⟩ := h
    split at hfin
    · simp at hfin
    · next hb =>
      simp only [Option.some.injEq, Prod.mk.injEq] at hfin
      obtain ⟨hm, hr⟩ := hfin
      subst hr
      obtain ⟨hs3, hl3, hd3⟩ := exactDigits_split _ _ _ _ h3
      obtain ⟨ho1, ho1c⟩ := optChar_split (· == '-') q3.2
      obtain ⟨hs2, hl2, hd2⟩ := exactDigits_split _ _ _ _ h2
      obtain ⟨ho2, ho2c⟩ := optChar_split (· == '-') q2.2
      obtain ⟨hs4, hl4, hd4⟩ := exactDigits_split _ _ _ _ h4
      refine ⟨bool_eq_false_of_not hp, bool_eq_false_of_not hb, ?_, ?_⟩
      · rw [hs3, ho1, hs2, ho2, hs4, ← hm]
        simp
      · refine ⟨q3.1, (optChar (· == '-') q3.2).1, q2.1, (optChar (· == '-') q2.2).1,
          q4.1, hm.symm, hl3, hl2, hl4, hd3, hd2, hd4, ?_, ?_⟩
        · rcases ho1c with hcase | ⟨c, hc, he⟩
          · exact Or.inl hcase
          · right
            rw [hc]
            simp at he
            rw [he]
        · rcases ho2c with hcase | ⟨c, hc, he⟩
          · exact Or.inl hcase
          · right
            rw [hc]
            simp at he
            rw [he]

/-- Shape of a bare phone tail match: `\d{3} [-.\s]? \d{4}`. -/
def PhoneTailShape (m : List Char) : Prop :=
  ∃ a o b : List Char, m = a ++ o ++ b ∧ a.length = 3 ∧ b.length = 4 ∧
    (∀ c ∈ a, c.isDigit = true) ∧ (∀ c ∈ b, c.isDigit = true) ∧
    (o = [] ∨ ∃ c, o = [c] ∧ isSepChar c = true)

lemma phoneTail_inv {s m r : List Char} (h : phoneTail s = some (m, r)) :
    wordOpt r.head? = false ∧ s = m ++ r ∧ PhoneTailShape m := by
  unfold phoneTail at h
  simp only [Option.bind_eq_some] at h
  obtain ⟨qa, ha, qb, hb, hfin⟩ := h
  split at hfin
  · simp at hfin
  · next hw =>
    simp only [Option.some.injEq, Prod.mk.injEq] at hfin
    obtain ⟨hm, hr⟩ := hfin
    subst hr
    obtain ⟨hsa, hla, hda⟩ := exactDigits_split _ _ _ _ ha
    obtain ⟨ho, hoc⟩ := optChar_split isSepChar qa.2
    obtain ⟨hsb, hlb, hdb⟩ := exactDigits_split _ _ _ _ hb
    refine ⟨bool_eq_false_of_not hw, ?_, ?_⟩
    · rw [hsa, ho, hsb, ← hm]
      simp
    · refine ⟨qa.1, (optChar isSepChar qa.2).1, qb.1, hm.symm, hla, hlb, hda, hdb, ?_⟩
      rcases hoc with hcase | ⟨c, hc, he⟩
      · exact Or.inl hcase
      · exact Or.inr ⟨c, hc, he⟩

/-- Shape of a phone match made with the area-code group:
`\(? \d{3} \)? [-.\s]?` then a tail. -/
def PhoneGroupShape (m r : List Char) : Prop :=
  ∃ p1 a p2 o t : List Char, m = p1 ++ a ++ p2 ++ o ++ t ∧
    (p1 = [] ∨ p1 = ['(']) ∧ a.length = 3 ∧ (∀ c ∈ a, c.isDigit = true) ∧
    (p2 = [] ∨ p2 = [')']) ∧
    (o = [] ∨ ∃ c, o = [c] ∧ isSepChar c = true) ∧
    phoneTail (t ++ r) = some (t, r)

lemma phoneGroup_inv {s m r : List Char} (h : phoneGroup s = some (m, r)) :
    wordOpt r.head? = false ∧ s = m ++ r ∧ PhoneGroupShape m r := by
  unfold phoneGroup at h
  simp only [Option.bind_eq_some] at h
  obtain ⟨qa, ha, qt, ht, hfin⟩ := h
  simp only [Option.some.injEq, Prod.mk.injEq] at hfin
  obtain ⟨hm, hr⟩ := hfin
  subst hr
  obtain ⟨hw, hst, hshape⟩ := phoneTail_inv ht
  obtain ⟨hp1, _⟩ := optChar_split (· == '(') s
  obtain ⟨hsa, hla, hda⟩ := exactDigits_split _ _ _ _ ha
  obtain ⟨hp2, hp2c⟩ := optChar_split (· == ')') qa.2
  obtain ⟨ho, hoc⟩ := optChar_split isSepChar (optChar (· == ')') qa.2).2
  refine ⟨hw, ?_, ?_⟩
  · rw [hp1, hsa, hp2, ho, hst, ← hm]
    simp
  · refine ⟨(optChar (· == '(') s).1, qa.1, (optChar (· == ')') qa.2).1,
      (optChar isSepChar (optChar (· == ')') qa.2).2).1, qt.1, hm.symm, ?_, hla, hda,
      ?_, ?_, ?_⟩
    · rcases (optChar_split (· == '(') s).2 with hcase | ⟨c, hc, he⟩
      · exact Or.inl hcase
      · right
        rw [hc]
        simp at he
        rw [he]
    · rcases hp2c with hcase | ⟨c, hc, he⟩
      · exact Or.inl hcase
      · right
        rw [hc]
        simp at he
        rw [he]
    · rcases hoc with hcase | ⟨c, hc, he⟩
      · exact Or.inl hcase
      · exact Or.inr ⟨c, hc, he⟩
    · rw [← hst]
      exact ht

lemma phoneMatch_inv {p : Option Char} {s m r : List Char}
    (h : phoneMatch p s = some (m, r)) :
    (wordOpt p = wordOpt s.head? → False) ∧ wordOpt r.head? = false ∧ s = m ++ r ∧
    (phoneGroup s = some (m, r) ∨
      (phoneGroup s = none ∧ phoneTail s = some (m, r))) := by
  unfold phoneMatch at h
  split at h
  · simp at h
  · next hbnd =>
    have hb : (wordOpt p == wordOpt s.head?) = false := bool_eq_false_of_not hbnd
    rw [Option.or_eq_some] at h
    rcases h with hg | ⟨hg, ht⟩
    · obtain ⟨hw, hs, _⟩ := phoneGroup_inv hg
      exact ⟨fun he => by simp [he] at hb, hw, hs, Or.inl hg⟩
    · obtain ⟨hw, hs, _⟩ := phoneTail_inv ht
      exact ⟨fun he => by simp [he] at hb, hw, hs, Or.inr ⟨hg, ht⟩⟩

lemma dropWhile_head_not (p : Char → Bool) :
    ∀ (l : List Char) (c : Char), (l.dropWhile p).head? = some c → p c = false := by
  intro l
  induction l with
  | nil => intro c h; simp at h
  | cons a t ih =>
    intro c h
    rw [List.dropWhile_cons] at h
    by_cases ha : p a
    · rw [if_pos (by simpa using ha)] at h
      exact ih c h
    · rw [if_neg (by simpa using ha)] at h
      simp at h
      rw [← h]
      simpa using ha

lemma accountMatch_inv {p : Option Char} {s m r : List Char}
    (h : accountMatch p s = some (m, r)) :
    wordOpt p = false ∧ wordOpt r.head? = false ∧ s = m ++ r ∧ 8 ≤ m.length ∧
    (∀ c ∈ m, c.isDigit = true) := by
  unfold accountMatch at h
  split at h
  · simp at h
  · next hp =>
    split at h
    · next hcond =>
      simp only [Option.some.injEq] at h
      rw [List.span_eq_take_drop] at h
      obtain ⟨hm, hr⟩ := Prod.mk.injEq .. |>.mp h
      simp only [List.span_eq_take_drop] at hcond
      obtain ⟨hlen, hnw⟩ := Bool.and_eq_true .. |>.mp hcond
      refine ⟨bool_eq_false_of_not hp, ?_, ?_, ?_, ?_⟩
      · rw [← hr]
        simpa [Bool.not_eq_true'] using hnw
      · rw [← hm, ← hr]
        exact (List.takeWhile_append_dropWhile _ _).symm
      · rw [← hm]
        simpa using hlen
      · intro c hc
        rw [← hm] at hc
        simpa using List.mem_takeWhile_imp hc
    · simp at h

lemma tryDown_some {α : Type} (f : Nat → Option α) :
    ∀ (n : Nat) (x : α), tryDown f n = some x →
      ∃ k, 1 ≤ k ∧ k ≤ n ∧ f k = some x := by
  intro n
  induction n with
  | zero => intro x h; simp [tryDown] at h
  | succ n ih =>
    intro x h
    unfold tryDown at h
    split at h
    · next y hy =>
      simp only [Option.some.injEq] at h
      exact ⟨n + 1, Nat.le_add_left 1 n, Nat.le_refl _, by rw [hy, h]⟩
    · obtain ⟨k, h1, h2, h3⟩ := ih x h
      exact ⟨k, h1, Nat.le_succ_of_le h2, h3⟩

lemma emailTldPick_split {t r tld rem : List Char}
    (h : emailTldPick t r = some (tld, rem)) :
    t ++ r = tld ++ rem ∧ tld ≠ [] := by
  unfold emailTldPick at h
  obtain ⟨j, hj1, hjn, hf⟩ := tryDown_some _ _ _ h
  split at hf
  · simp at hf
  · next hj2 =>
    split at hf
    · simp at hf
    · simp only [Option.some.injEq, Prod.mk.injEq] at hf
      obtain ⟨he1, he2⟩ := hf
      constructor
      · rw [← he1, ← he2, ← List.append_assoc, List.take_append_drop]
      · intro h0
        rw [← he1] at h0
        have : (t.take j).length = 0 := by rw [h0]; rfl
        rw [List.length_take] at this
        have hj2le : 2 ≤ j := Nat.le_of_not_lt (by simpa using hj2)
        omega

lemma emailDomainAt_split {d rest0 : List Char} {k : Nat} {tm rem : List Char}
    (h : emailDomainAt d rest0 k = some (tm, rem)) :
    d ++ rest0 = tm ++ rem ∧ tm ≠ [] := by
  unfold emailDomainAt at h
  split at h
  · next hcond =>
    obtain ⟨hklt, hdot⟩ := Bool.and_eq_true .. |>.mp hcond
    have hklt2 : k < d.length := by simpa using hklt
    have hdot2 : d.getD k ' ' = '.' := by simpa using hdot
    simp only [Option.bind_eq_some] at h
    obtain ⟨q, hq, he⟩ := h
    simp only [Option.some.injEq, Prod.mk.injEq] at he
    obtain ⟨he1, he2⟩ := he
    obtain ⟨hsp, _⟩ := emailTldPick_split (t := ((d.drop (k + 1) ++ rest0).span isTldChar).1)
      (r := ((d.drop (k + 1) ++ rest0).span isTldChar).2) (by rw [hq])
    simp only [List.span_eq_take_drop, List.takeWhile_append_dropWhile] at hsp
    have hgetk : d[k] = '.' := by
      rw [← List.getD_eq_getElem d ' ' hklt2]
      exact hdot2
    have hd : d.take k ++ '.' :: d.drop (k + 1) = d := by
      calc d.take k ++ '.' :: d.drop (k + 1)
          = d.take k ++ d[k] :: d.drop (k + 1) := by rw [hgetk]
        _ = d.take k ++ d.drop k := by rw [List.drop_eq_getElem_cons hklt2]
        _ = d := List.take_append_drop k d
    constructor
    · calc d ++ rest0 = (d.take k ++ '.' :: d.drop (k + 1)) ++ rest0 := by rw [hd]
        _ = d.take k ++ '.' :: (d.drop (k + 1) ++ rest0) := by simp
        _ = d.take k ++ '.' :: (q.1 ++ q.2) := by rw [hsp]
        _ = (d.take k ++ '.' :: q.1) ++ q.2 := by simp
        _ = tm ++ rem := by rw [he1, he2]
    · intro h0
      rw [← he1] at h0
      rcases List.append_eq_nil.mp h0 with ⟨_, h2⟩
      exact absurd h2 (by simp)
  · simp at h

lemma emailAfterAt_split {s tm rem : List Char}
    (h : emailAfterAt s = some (tm, rem)) : s = tm ++ rem ∧ tm ≠ [] := by
  unfold emailAfterAt at h
  obtain ⟨k, _, _, hf⟩ := tryDown_some _ _ _ h
  obtain ⟨he, hne⟩ := emailDomainAt_split hf
  refine ⟨?_, hne⟩
  rw [List.span_eq_take_drop] at he
  simp only [List.takeWhile_append_dropWhile] at he
  exact he

lemma emailMatch_split {p : Option Char} {s m r : List Char}
    (h : emailMatch p s = some (m, r)) : s = m ++ r ∧ m ≠ [] := by
  unfold emailMatch at h
  split at h
  · simp at h
  · split at h
    · simp at h
    · next hloc =>
      split at h
      · next c s2 hsp2 =>
        split at h
        · next hc =>
          subst hc
          simp only [Option.bind_eq_some] at h
          obtain ⟨q, hq, he⟩ := h
          simp only [Option.some.injEq, Prod.mk.injEq] at he
          obtain ⟨he1, he2⟩ := he
          obtain ⟨hs2, _⟩ := emailAfterAt_split hq
          constructor
          · have hsplit : s = (s.span isLocalChar).1 ++ (s.span isLocalChar).2 := by
              rw [List.span_eq_take_drop]
              exact (List.takeWhile_append_dropWhile _ _).symm
            rw [hsplit, hsp2, hs2, ← he1, ← he2]
            simp
          · intro h0
            rw [← he1] at h0
            rcases List.append_eq_nil.mp h0 with ⟨_, h2⟩
            exact absurd h2 (by simp)
        · simp at h
      · simp at h

lemma matcher_split (c : PIICat) :
    ∀ (p : Option Char) (s m r : List Char),
      matcherFor c p s = some (m, r) → s = m ++ r ∧ m ≠ [] := by
  intro p s m r h
  cases c with
  | ssn =>
    obtain ⟨_, _, hs, d3, o1, d2, o2, d4, hm, hl3, _, _, _, _, _, _, _⟩ := ssnMatch_inv h
    refine ⟨hs, ?_⟩
    intro h0
    rw [h0] at hm
    obtain ⟨h1, -⟩ := List.append_eq_nil.mp hm.symm
    obtain ⟨h2, -⟩ := List.append_eq_nil.mp h1
    obtain ⟨h3, -⟩ := List.append_eq_nil.mp h2
    obtain ⟨h4, -⟩ := List.append_eq_nil.mp h3
    rw [h4] at hl3
    simp at hl3
  | phone =>
    obtain ⟨_, _, hs, hcase⟩ := phoneMatch_inv h
    refine ⟨hs, ?_⟩
    intro h0
    rcases hcase with hg | ⟨_, ht⟩
    · obtain ⟨_, _, p1, a, p2, o, t, hm, _, hla, _, _, _, _⟩ := phoneGroup_inv hg
      rw [h0] at hm
      obtain ⟨h1, -⟩ := List.append_eq_nil.mp hm.symm
      obtain ⟨h2, -⟩ := List.append_eq_nil.mp h1
      obtain ⟨h3, -⟩ := List.append_eq_nil.mp h2
      obtain ⟨-, h4⟩ := List.append_eq_nil.mp h3
      rw [h4] at hla
      simp at hla
    · obtain ⟨_, _, a, o, b, hm, hla, _, _, _, _⟩ := phoneTail_inv ht
      rw [h0] at hm
      obtain ⟨h1, -⟩ := List.append_eq_nil.mp hm.symm
      obtain ⟨h2, -⟩ := List.append_eq_nil.mp h1
      rw [h2] at hla
      simp at hla
  | email => exact emailMatch_split h
  | account =>
    obtain ⟨_, _, hs, hlen, _⟩ := accountMatch_inv h
    refine ⟨hs, ?_⟩
    intro h0
    rw [h0] at hlen
    simp at hlen

/-! ## C4: the substitution scan decomposes the value -/

lemma scan_chunks
    (M : Option Char → List Char → Option (List Char × List Char))
    (maskOf : List Char → List Char)
    (hsplit : ∀ p s m r, M p s = some (m, r) → s = m ++ r ∧ m ≠ []) :
    ∀ (fuel : Nat) (p : Option Char) (s : List Char), s.length ≤ fuel →
      ∃ (l : List (List Char × List Char)) (tl : List Char),
        s = (l.map (fun q => q.1 ++ q.2)).join ++ tl ∧
        scanSub M maskOf fuel p s = (l.map (fun q => q.1 ++ maskOf q.2)).join ++ tl ∧
        ∀ q ∈ l, q.2 ≠ [] ∧ ∃ pv r0, M pv (q.2 ++ r0) = some (q.2, r0) := by
  intro fuel
  induction fuel with
  | zero =>
    intro p s hs
    rw [List.length_eq_zero.mp (Nat.le_zero.mp hs)]
    exact ⟨[], [], by simp, by simp [scanSub], by simp⟩
  | succ fuel ih =>
    intro p s hs
    cases s with
    | nil => exact ⟨[], [], by simp, by simp [scanSub], by simp⟩
    | cons c cs =>
      cases hm : M p (c :: cs) with
      | none =>
        obtain ⟨l1, tl1, hs1, hout1, hq1⟩ :=
          ih (some c) cs (Nat.le_of_succ_le_succ hs)
        cases l1 with
        | nil =>
          refine ⟨[], c :: tl1, by simpa using hs1, ?_, by simp⟩
          simp only [scanSub, hm]
          simpa using hout1
        | cons q t =>
          refine ⟨(c :: q.1, q.2) :: t, tl1, ?_, ?_, ?_⟩
          · simp only [List.map_cons, List.join] at hs1 ⊢
            simp [hs1]
          · simp only [scanSub, hm]
            simp only [List.map_cons, List.join] at hout1 ⊢
            simp [hout1]
          · intro x hx
            rcases List.mem_cons.mp hx with rfl | hx2
            · exact hq1 q (List.mem_cons_self q t)
            · exact hq1 x (List.mem_cons_of_mem q hx2)
      | some mr =>
        obtain ⟨hsplit1, hne⟩ := hsplit p (c :: cs) mr.1 mr.2 (by rw [hm])
        have hr : mr.2.length ≤ fuel := by
          have h1 : (c :: cs).length = mr.1.length + mr.2.length := by
            rw [hsplit1, List.length_append]
          have h2 : 1 ≤ mr.1.length := by
            cases hmm : mr.1 with
            | nil => exact absurd hmm hne
            | cons a b => simp
          simp only [List.length_cons] at hs h1
          omega
        obtain ⟨l1, tl1, hs1, hout1, hq1⟩ := ih mr.1.getLast? mr.2 hr
        refine ⟨([], mr.1) :: l1, tl1, ?_, ?_, ?_⟩
        · simp only [List.map_cons, List.join, List.nil_append]
          rw [hsplit1, hs1]
          simp
        · simp only [scanSub, hm, List.map_cons, List.join, List.nil_append]
          rw [hout1]
          simp
        · intro x hx
          rcases List.mem_cons.mp hx with rfl | hx2
          · refine ⟨hne, p, mr.2, ?_⟩
            rw [← hsplit1, hm]
          · exact hq1 x hx2

/-- C4: for every value and category, the redacted string decomposes as the
original with exactly the matched substrings replaced: the value splits into
alternating unmatched text (preserved verbatim) and pattern matches, each
replaced by the category's mask — a run of `X` of the matched digit run's
length for AccountNumber, a fixed literal for the other categories. -/
theorem C4_redaction_replaces_only_matches (c : PIICat) (s : String) :
    ∃ (l : List (List Char × List Char)) (tl : List Char),
      s.data = (l.map (fun q => q.1 ++ q.2)).join ++ tl ∧
      (redactStr s c).data = (l.map (fun q => q.1 ++ maskFor c q.2)).join ++ tl ∧
      (∀ q ∈ l, q.2 ≠ [] ∧
        ∃ pv r0, matcherFor c pv (q.2 ++ r0) = some (q.2, r0)) ∧
      (c = PIICat.account → ∀ q ∈ l,
        maskFor c q.2 = List.replicate q.2.length 'X' ∧
        ∀ ch ∈ q.2, ch.isDigit = true) ∧
      (c = PIICat.ssn → ∀ q ∈ l, maskFor c q.2 = "XXX-XX-XXXX".data) ∧
      (c = PIICat.phone → ∀ q ∈ l, maskFor c q.2 = "XXX-XXX-XXXX".data) ∧
      (c = PIICat.email → ∀ q ∈ l, maskFor c q.2 = "REDACTED@EMAIL.COM".data) := by
  obtain ⟨l, tl, h1, h2, h3⟩ :=
    scan_chunks (matcherFor c) (maskFor c) (matcher_split c) s.data.length none s.data
      (Nat.le_refl _)
  refine ⟨l, tl, h1, h2, h3, ?_, ?_, ?_, ?_⟩
  · rintro rfl
    intro q hq
    refine ⟨rfl, ?_⟩
    obtain ⟨_, pv, r0, hmq⟩ := h3 q hq
    obtain ⟨_, _, _, _, hdig⟩ := accountMatch_inv hmq
    intro ch hch
    exact hdig ch hch
  · rintro rfl
    intro q hq
    rfl
  · rintro rfl
    intro q hq
    rfl
  · rintro rfl
    intro q hq
    rfl

/-! ## C5: idempotence of redaction

The generic argument: a second scan finds no match in the output of a first
scan, provided the masks contain no character that can start a match, the
mask's first character is outside the pattern's character span and is a word
character, and the matcher is local (a match is determined by its characters
and the word-class of its right neighbour).  The email pattern violates the
mask conditions — its own mask is a matchable email — and is exactly the
category for which idempotence fails. -/

/-- The character to the left of a position reached after reading `a` with
previous context `p`. -/
def prevAt (p : Option Char) (a : List Char) : Option Char :=
  match a.getLast? with
  | some c => some c
  | none => p

lemma prevAt_nil (p : Option Char) : prevAt p [] = p := rfl

lemma prevAt_cons (p : Option Char) (c : Char) (a : List Char) :
    prevAt p (c :: a) = prevAt (some c) a := by
  cases a with
  | nil => rfl
  | cons d t =>
    unfold prevAt
    rw [List.getLast?_cons_cons]
    cases hg : (d :: t).getLast? with
    | none => exact absurd (List.getLast?_eq_none_iff.mp hg) (by simp)
    | some e => simp only [hg]

lemma prevAt_append (p : Option Char) (a b : List Char) :
    prevAt p (a ++ b) = prevAt (prevAt p a) b := by
  induction a generalizing p with
  | nil => rw [List.nil_append, prevAt_nil]
  | cons c t ih => rw [List.cons_append, prevAt_cons, prevAt_cons, ih]

lemma prevAt_of_ne_nil {a : List Char} (h : a ≠ []) (p p2 : Option Char) :
    prevAt p a = prevAt p2 a := by
  unfold prevAt
  cases ha : a.getLast? with
  | none => exact absurd (List.getLast?_eq_none_iff.mp ha) h
  | some c => rfl

/-- No match starts anywhere in `s`, in left context `p`. -/
def NoMatchOn (M : Option Char → List Char → Option (List Char × List Char))
    (p : Option Char) (s : List Char) : Prop :=
  ∀ a b : List Char, s = a ++ b → M (prevAt p a) b = none

lemma match_nil_none
    {M : Option Char → List Char → Option (List Char × List Char)}
    (hsplit : ∀ p s m r, M p s = some (m, r) → s = m ++ r ∧ m ≠ [])
    (p : Option Char) : M p [] = none := by
  cases h : M p [] with
  | none => rfl
  | some mr =>
    obtain ⟨hs, hne⟩ := hsplit p [] mr.1 mr.2 (by rw [h])
    obtain ⟨h1, -⟩ := List.append_eq_nil.mp hs.symm
    exact absurd h1 hne

lemma scan_of_noMatch
    (M : Option Char → List Char → Option (List Char × List Char))
    (maskOf : List Char → List Char) :
    ∀ (fuel : Nat) (p : Option Char) (s : List Char), s.length ≤ fuel →
      NoMatchOn M p s → scanSub M maskOf fuel p s = s := by
  intro fuel
  induction fuel with
  | zero =>
    intro p s hs _
    rw [List.length_eq_zero.mp (Nat.le_zero.mp hs)]
    rfl
  | succ fuel ih =>
    intro p s hs hnm
    cases s with
    | nil => rfl
    | cons c cs =>
      have h0 : M p (c :: cs) = none := by
        have := hnm [] (c :: cs) rfl
        rwa [prevAt_nil] at this
      simp only [scanSub, h0]
      rw [ih (some c) cs (Nat.le_of_succ_le_succ hs)]
      intro a b hab
      have := hnm (c :: a) b (by rw [hab, List.cons_append])
      rwa [prevAt_cons] at this

lemma scan_shape
    {M : Option Char → List Char → Option (List Char × List Char)}
    (maskOf : List Char → List Char)
    (hsplit : ∀ p s m r, M p s = some (m, r) → s = m ++ r ∧ m ≠ []) :
    ∀ (fuel : Nat) (p : Option Char) (s : List Char), s.length ≤ fuel →
      scanSub M maskOf fuel p s = s ∨
      ∃ t1 m2 rest2, s = t1 ++ m2 ++ (s.drop (t1 ++ m2).length) ∧
        scanSub M maskOf fuel p s = t1 ++ maskOf m2 ++ rest2 ∧ m2 ≠ [] := by
  intro fuel
  induction fuel with
  | zero =>
    intro p s hs
    rw [List.length_eq_zero.mp (Nat.le_zero.mp hs)]
    exact Or.inl rfl
  | succ fuel ih =>
    intro p s hs
    cases s with
    | nil => exact Or.inl rfl
    | cons c cs =>
      cases hm : M p (c :: cs) with
      | none =>
        rcases ih (some c) cs (Nat.le_of_succ_le_succ hs) with h | ⟨t1, m2, rest2, hcs, hscan, hne⟩
        · left
          simp only [scanSub, hm]
          rw [h]
        · right
          refine ⟨c :: t1, m2, rest2, ?_, ?_, hne⟩
          · conv_lhs => rw [hcs]
            simp only [List.cons_append, List.length_cons, List.drop_succ_cons]
          · simp only [scanSub, hm]
            rw [hscan]
            simp
      | some mr =>
        right
        obtain ⟨hsp, hne⟩ := hsplit p (c :: cs) mr.1 mr.2 (by rw [hm])
        refine ⟨[], mr.1, scanSub M maskOf fuel mr.1.getLast? mr.2, ?_, ?_, hne⟩
        · simp only [List.nil_append]
          rw [hsp, List.drop_left]
        · simp only [scanSub, hm, List.nil_append]
lemma append_split_of_le {α : Type} :
    ∀ (a c b d : List α), a ++ b = c ++ d → a.length ≤ c.length →
      ∃ u, c = a ++ u ∧ b = u ++ d := by
  intro a
  induction a with
  | nil =>
    intro c b d h _
    exact ⟨c, rfl, h⟩
  | cons x t ih =>
    intro c b d h hl
    cases c with
    | nil => simp at hl
    | cons y c2 =>
      rw [List.cons_append, List.cons_append] at h
      injection h with h1 h2
      subst h1
      obtain ⟨u, hu1, hu2⟩ := ih c2 b d h2 (by simpa using hl)
      exact ⟨u, by rw [hu1, List.cons_append], hu2⟩

/-- The conditions under which a substitution scan is idempotent: the matcher
is local and boundary-driven, and the masks can neither start, continue nor
extend a match.  `S` is the pattern's character span, `T` its possible start
characters. -/
structure SubIdemOK (M : Option Char → List Char → Option (List Char × List Char))
    (maskOf : List Char → List Char) (S T : Char → Bool) : Prop where
  split : ∀ p s m r, M p s = some (m, r) → s = m ++ r ∧ m ≠ []
  prevClass : ∀ p p2 s, wordOpt p = wordOpt p2 → M p s = M p2 s
  spanC : ∀ p s m r, M p s = some (m, r) → ∀ c ∈ m, S c = true
  startC : ∀ p c cs m r, M p (c :: cs) = some (m, r) → T c = true
  endWord : ∀ p s m r, M p s = some (m, r) → wordOpt m.getLast? = true
  endBound : ∀ p s m r, M p s = some (m, r) → wordOpt r.head? = false
  ext : ∀ p m r r2, M p (m ++ r) = some (m, r) → wordOpt r2.head? = wordOpt r.head? →
    M p (m ++ r2) = some (m, r2)
  maskNe : ∀ m, m ≠ [] → maskOf m ≠ []
  maskHeadWord : ∀ m c, (maskOf m).head? = some c → isWordChar c = true
  maskHeadSpan : ∀ m c, (maskOf m).head? = some c → S c = false
  maskStart : ∀ m c, c ∈ maskOf m → T c = false
  maskLastWord : ∀ m c, (maskOf m).getLast? = some c → isWordChar c = true

lemma prevAt_eq {a : List Char} {x : Char} (h : a.getLast? = some x)
    (p : Option Char) : prevAt p a = some x := by
  unfold prevAt
  rw [h]

lemma match_none_scan
    {M : Option Char → List Char → Option (List Char × List Char)}
    {maskOf : List Char → List Char} {S T : Char → Bool}
    (hM : SubIdemOK M maskOf S T) :
    ∀ (fuel : Nat) (p : Option Char) (c : Char) (cs : List Char), cs.length ≤ fuel →
      M p (c :: cs) = none →
      M p (c :: scanSub M maskOf fuel (some c) cs) = none := by
  intro fuel p c cs hl hnone
  cases hout : M p (c :: scanSub M maskOf fuel (some c) cs) with
  | none => rfl
  | some mr =>
    exfalso
    obtain ⟨hsp, hne⟩ := hM.split _ _ _ _ hout
    cases hm1 : mr.1 with
    | nil => exact hne hm1
    | cons c0 m1 =>
      rw [hm1, List.cons_append] at hsp
      injection hsp with hc0 houteq0
      subst hc0
      rcases scan_shape maskOf hM.split fuel (some c) cs hl with
        hid | ⟨t1, m2, rest2, hcs, hscan, hm2ne⟩
      · rw [hid, hnone] at hout
        simp at hout
      · have heq : m1 ++ mr.2 = t1 ++ (maskOf m2 ++ rest2) := by
          rw [← houteq0, hscan, List.append_assoc]
        have hspan := hM.spanC _ _ _ _ hout
        have hmaskne := hM.maskNe m2 hm2ne
        obtain ⟨hx, mtl, hmtl⟩ : ∃ hx mtl, maskOf m2 = hx :: mtl := by
          cases hmm : maskOf m2 with
          | nil => exact absurd hmm hmaskne
          | cons a b => exact ⟨a, b, rfl⟩
        have hM1 : M p (mr.1 ++ mr.2) = some (mr.1, mr.2) := by
          have hrw : mr.1 ++ mr.2 = c :: scanSub M maskOf fuel (some c) cs := by
            rw [hm1, List.cons_append, houteq0]
          rw [hrw, hout]
        rcases le_or_lt m1.length t1.length with hle | hlt
        · obtain ⟨u, hu1, hu2⟩ :=
            append_split_of_le m1 t1 mr.2 (maskOf m2 ++ rest2) heq hle
          cases u with
          | nil =>
            have hhd : wordOpt mr.2.head? = true := by
              rw [hu2, List.nil_append, hmtl, List.cons_append]
              simp only [List.head?_cons, wordOpt]
              exact hM.maskHeadWord m2 hx (by rw [hmtl]; rfl)
            rw [hM.endBound _ _ _ _ hout] at hhd
            simp at hhd
          | cons d u2 =>
            have hrorig : c :: cs = mr.1 ++ ((d :: u2) ++ (m2 ++ cs.drop (t1 ++ m2).length)) := by
              conv_lhs => rw [hcs]
              rw [hm1, hu1]
              simp [List.append_assoc]
            have hhd : wordOpt ((d :: u2) ++ (m2 ++ cs.drop (t1 ++ m2).length)).head? =
                wordOpt mr.2.head? := by
              rw [hu2]
              simp
            have := hM.ext p mr.1 mr.2 ((d :: u2) ++ (m2 ++ cs.drop (t1 ++ m2).length)) hM1 hhd
            rw [← hrorig, hnone] at this
            simp at this
        · obtain ⟨u, hu1, hu2⟩ :=
            append_split_of_le t1 m1 (maskOf m2 ++ rest2) mr.2 heq.symm (Nat.le_of_lt hlt)
          cases u with
          | nil =>
            rw [hu1, List.append_nil] at hlt
            exact absurd rfl (Nat.ne_of_lt hlt)
          | cons e u2 =>
            have hxe : hx = e := by
              rw [hmtl, List.cons_append] at hu2
              injection hu2 with h1 _
            have hSe : S e = true := by
              apply hspan
              rw [hm1, hu1]
              exact List.mem_cons_of_mem c (List.mem_append_right t1 (List.mem_cons_self e u2))
            have hSx : S hx = false := hM.maskHeadSpan m2 hx (by rw [hmtl, List.head?_cons])
            rw [hxe, hSe] at hSx
            simp at hSx

lemma scan_noMatch
    {M : Option Char → List Char → Option (List Char × List Char)}
    {maskOf : List Char → List Char} {S T : Char → Bool}
    (hM : SubIdemOK M maskOf S T) :
    ∀ (fuel : Nat) (p : Option Char) (s : List Char), s.length ≤ fuel →
      ∀ p2, wordOpt p2 = wordOpt p →
        NoMatchOn M p2 (scanSub M maskOf fuel p s) := by
  intro fuel
  induction fuel with
  | zero =>
    intro p s hs p2 _
    rw [List.length_eq_zero.mp (Nat.le_zero.mp hs)]
    intro a b hab
    obtain ⟨rfl, rfl⟩ := List.append_eq_nil.mp hab.symm
    exact match_nil_none hM.split _
  | succ fuel ih =>
    intro p s hs p2 hp2
    cases s with
    | nil =>
      intro a b hab
      obtain ⟨rfl, rfl⟩ := List.append_eq_nil.mp hab.symm
      exact match_nil_none hM.split _
    | cons c cs =>
      have hl : cs.length ≤ fuel := Nat.le_of_succ_le_succ hs
      cases hm : M p (c :: cs) with
      | none =>
        simp only [scanSub, hm]
        intro a b hab
        cases a with
        | nil =>
          rw [List.nil_append] at hab
          rw [prevAt_nil, ← hab]
          rw [hM.prevClass p2 p _ hp2]
          exact match_none_scan hM fuel p c cs hl hm
        | cons a0 a1 =>
          rw [List.cons_append] at hab
          injection hab with h1 h2
          subst h1
          rw [prevAt_cons]
          exact ih (some c) cs hl (some c) rfl a1 b h2
      | some mr =>
        simp only [scanSub, hm]
        obtain ⟨hsp, hne⟩ := hM.split _ _ _ _ hm
        have hr2 : mr.2.length ≤ fuel := by
          have h1 : (c :: cs).length = mr.1.length + mr.2.length := by
            rw [hsp, List.length_append]
          have h2 : 1 ≤ mr.1.length := by
            cases hmm : mr.1 with
            | nil => exact absurd hmm hne
            | cons x y => simp
          simp only [List.length_cons] at hs h1
          omega
        have hmaskne := hM.maskNe mr.1 hne
        obtain ⟨lx, hlast⟩ : ∃ lx, (maskOf mr.1).getLast? = some lx := by
          cases hmm : (maskOf mr.1).getLast? with
          | none => exact absurd (List.getLast?_eq_none_iff.mp hmm) hmaskne
          | some x => exact ⟨x, rfl⟩
        have hwpm : wordOpt (some lx) = wordOpt mr.1.getLast? := by
          rw [hM.endWord _ _ _ _ hm]
          simp only [wordOpt]
          exact hM.maskLastWord mr.1 lx hlast
        intro a b hab
        rcases le_or_lt (maskOf mr.1).length a.length with hle | hlt
        · obtain ⟨u, hu1, hu2⟩ := append_split_of_le (maskOf mr.1) a
            (scanSub M maskOf fuel mr.1.getLast? mr.2) b hab hle
          rw [hu1, prevAt_append, prevAt_eq hlast]
          exact ih mr.1.getLast? mr.2 hr2 (some lx) hwpm u b hu2
        · obtain ⟨u, hu1, hu2⟩ := append_split_of_le a (maskOf mr.1) b
            (scanSub M maskOf fuel mr.1.getLast? mr.2) hab.symm (Nat.le_of_lt hlt)
          cases u with
          | nil =>
            rw [hu1, List.append_nil] at hlt
            exact absurd rfl (Nat.ne_of_lt hlt)
          | cons e u2 =>
            rw [hu2, List.cons_append]
            cases hMb : M (prevAt p2 a)
                (e :: (u2 ++ scanSub M maskOf fuel mr.1.getLast? mr.2)) with
            | none => rfl
            | some x =>
              have hTe : T e = true :=
                hM.startC _ e _ x.1 x.2 (by rw [hMb])
              have : e ∈ maskOf mr.1 := by
                rw [hu1]
                exact List.mem_append_right a (List.mem_cons_self e u2)
              rw [hM.maskStart mr.1 e this] at hTe
              simp at hTe

/-- Idempotence of the substitution scan under `SubIdemOK`. -/
theorem sub_idem
    {M : Option Char → List Char → Option (List Char × List Char)}
    {maskOf : List Char → List Char} {S T : Char → Bool}
    (hM : SubIdemOK M maskOf S T) (s : List Char) :
    subAll M maskOf (subAll M maskOf s) = subAll M maskOf s := by
  unfold subAll
  exact scan_of_noMatch M maskOf _ none _ (Nat.le_refl _)
    (scan_noMatch hM s.length none s (Nat.le_refl _) none rfl)

/-! ### Character-class facts and reconstruction lemmas -/

lemma beq_false_of_digit_of_not {c d : Char} (h : c.isDigit = true)
    (hd : d.isDigit = false) : (c == d) = false := by
  cases hb : c == d
  · rfl
  · rw [eq_of_beq hb] at h
    rw [h] at hd
    simp at hd

lemma digit_not_sep {c : Char} (h : c.isDigit = true) : isSepChar c = false := by
  unfold isSepChar
  rw [beq_false_of_digit_of_not h (show ('-').isDigit = false by decide),
      beq_false_of_digit_of_not h (show ('.').isDigit = false by decide),
      beq_false_of_digit_of_not h (show (' ').isDigit = false by decide),
      beq_false_of_digit_of_not h (show ('\t').isDigit = false by decide),
      beq_false_of_digit_of_not h (show ('\n').isDigit = false by decide),
      beq_false_of_digit_of_not h (show ('\x0d').isDigit = false by decide),
      beq_false_of_digit_of_not h (show (Char.ofNat 11).isDigit = false by decide),
      beq_false_of_digit_of_not h (show (Char.ofNat 12).isDigit = false by decide)]
  rfl

lemma sep_not_rparen {c : Char} (h : isSepChar c = true) : (c == ')') = false := by
  cases hb : c == ')'
  · rfl
  · rw [eq_of_beq hb] at h
    exact absurd h (by decide)

lemma digit_ne {c d : Char} (h : c.isDigit = true) (hd : d.isDigit = false) :
    ¬ (c = d) := by
  intro hh
  rw [hh] at h
  rw [h] at hd
  simp at hd

lemma word_of_digit_head {u : List Char} {c : Char} (hu : wordOpt u.head? = false)
    (hc : u.head? = some c) : c.isDigit = false := by
  rw [hc] at hu
  exact not_word_not_digit hu

lemma listlen_three {l : List Char} (h : l.length = 3) :
    ∃ a1 a2 a3, l = [a1, a2, a3] := by
  rcases l with _ | ⟨a1, _ | ⟨a2, _ | ⟨a3, _ | ⟨a4, rest⟩⟩⟩⟩
  · simp at h
  · simp at h
  · simp at h
  · exact ⟨a1, a2, a3, rfl⟩
  · simp only [List.length_cons] at h
    omega

lemma listlen_two {l : List Char} (h : l.length = 2) : ∃ a1 a2, l = [a1, a2] := by
  rcases l with _ | ⟨a1, _ | ⟨a2, _ | ⟨a3, rest⟩⟩⟩
  · simp at h
  · simp at h
  · exact ⟨a1, a2, rfl⟩
  · simp only [List.length_cons] at h
    omega

lemma listlen_four {l : List Char} (h : l.length = 4) :
    ∃ a1 a2 a3 a4, l = [a1, a2, a3, a4] := by
  rcases l with _ | ⟨a1, _ | ⟨a2, _ | ⟨a3, _ | ⟨a4, _ | ⟨a5, rest⟩⟩⟩⟩⟩
  · simp at h
  · simp at h
  · simp at h
  · simp at h
  · exact ⟨a1, a2, a3, a4, rfl⟩
  · simp only [List.length_cons] at h
    omega

lemma ssnMatch_constr {p : Option Char} {m u : List Char}
    (hp : wordOpt p = false) (hsh : SsnShape m) (hu : wordOpt u.head? = false) :
    ssnMatch p (m ++ u) = some (m, u) := by
  obtain ⟨d3, o1, d2, o2, d4, rfl, hl3, hl2, hl4, hd3, hd2, hd4, ho1, ho2⟩ := hsh
  obtain ⟨a1, a2, a3, rfl⟩ := listlen_three hl3
  obtain ⟨e1, e2, rfl⟩ := listlen_two hl2
  obtain ⟨f1, f2, f3, f4, rfl⟩ := listlen_four hl4
  have ha1 : a1.isDigit = true := hd3 a1 (by simp)
  have ha2 : a2.isDigit = true := hd3 a2 (by simp)
  have ha3 : a3.isDigit = true := hd3 a3 (by simp)
  have he1 : e1.isDigit = true := hd2 e1 (by simp)
  have he2 : e2.isDigit = true := hd2 e2 (by simp)
  have hf1 : f1.isDigit = true := hd4 f1 (by simp)
  have hf2 : f2.isDigit = true := hd4 f2 (by simp)
  have hf3 : f3.isDigit = true := hd4 f3 (by simp)
  have hf4 : f4.isDigit = true := hd4 f4 (by simp)
  have hne1 : ¬ (e1 = '-') := digit_ne he1 (by decide)
  have hnf1 : ¬ (f1 = '-') := digit_ne hf1 (by decide)
  rcases ho1 with rfl | rfl <;> rcases ho2 with rfl | rfl <;>
    simp [ssnMatch, exactDigits, optChar, hp, hu, ha1, ha2, ha3, he1, he2,
      hf1, hf2, hf3, hf4, hne1, hnf1]

lemma phoneTail_constr {m u : List Char} (hsh : PhoneTailShape m)
    (hu : wordOpt u.head? = false) : phoneTail (m ++ u) = some (m, u) := by
  obtain ⟨a, o, b, rfl, hla, hlb, hda, hdb, ho⟩ := hsh
  obtain ⟨a1, a2, a3, rfl⟩ := listlen_three hla
  obtain ⟨b1, b2, b3, b4, rfl⟩ := listlen_four hlb
  have ha1 : a1.isDigit = true := hda a1 (by simp)
  have ha2 : a2.isDigit = true := hda a2 (by simp)
  have ha3 : a3.isDigit = true := hda a3 (by simp)
  have hb1 : b1.isDigit = true := hdb b1 (by simp)
  have hb2 : b2.isDigit = true := hdb b2 (by simp)
  have hb3 : b3.isDigit = true := hdb b3 (by simp)
  have hb4 : b4.isDigit = true := hdb b4 (by simp)
  have hsb1 : isSepChar b1 = false := digit_not_sep hb1
  rcases ho with rfl | ⟨c, rfl, hc⟩
  · simp [phoneTail, exactDigits, optChar, hu, ha1, ha2, ha3,
      hb1, hb2, hb3, hb4, hsb1]
  · simp [phoneTail, exactDigits, optChar, hu, ha1, ha2, ha3,
      hb1, hb2, hb3, hb4, hsb1, hc]

lemma phoneGroup_none_of_tail {m u : List Char} (hsh : PhoneTailShape m)
    (hu : wordOpt u.head? = false) : phoneGroup (m ++ u) = none := by
  obtain ⟨a, o, b, rfl, hla, hlb, hda, hdb, ho⟩ := hsh
  obtain ⟨a1, a2, a3, rfl⟩ := listlen_three hla
  obtain ⟨b1, b2, b3, b4, rfl⟩ := listlen_four hlb
  have ha1 : a1.isDigit = true := hda a1 (by simp)
  have ha2 : a2.isDigit = true := hda a2 (by simp)
  have ha3 : a3.isDigit = true := hda a3 (by simp)
  have hb1 : b1.isDigit = true := hdb b1 (by simp)
  have hb2 : b2.isDigit = true := hdb b2 (by simp)
  have hb3 : b3.isDigit = true := hdb b3 (by simp)
  have hb4 : b4.isDigit = true := hdb b4 (by simp)
  have hend : exactDigits 3 u = none := exactDigits_none_of_head 2 u hu
  have hna1 : ¬ (a1 = '(') := digit_ne ha1 (by decide)
  have hnb1r : ¬ (b1 = ')') := digit_ne hb1 (by decide)
  have hsb1 : isSepChar b1 = false := digit_not_sep hb1
  have hsb4 : isSepChar b4 = false := digit_not_sep hb4
  rcases ho with rfl | ⟨c, rfl, hc⟩
  · simp [phoneGroup, phoneTail, exactDigits, optChar, hend, ha1, ha2, ha3,
      hb1, hb2, hb3, hb4, hna1, hnb1r, hsb1, hsb4]
  · have hncr : ¬ (c = ')') := by
      intro hh
      rw [hh] at hc
      exact absurd hc (by decide)
    simp [phoneGroup, phoneTail, exactDigits, optChar, hend, ha1, ha2, ha3,
      hb1, hb2, hb3, hb4, hna1, hncr, hc, hsb1, hsb4]

lemma phoneTailShape_head {t : List Char} (h : PhoneTailShape t) :
    ∃ c t2, t = c :: t2 ∧ c.isDigit = true := by
  obtain ⟨a, o, b, rfl, hla, hlb, hda, _, _⟩ := h
  obtain ⟨a1, a2, a3, rfl⟩ := listlen_three hla
  exact ⟨a1, a2 :: a3 :: (o ++ b), by simp, hda a1 (by simp)⟩

lemma phoneGroup_constr {m r u : List Char} (hsh : PhoneGroupShape m r)
    (hu : wordOpt u.head? = false) : phoneGroup (m ++ u) = some (m, u) := by
  obtain ⟨p1, a, p2, o, t, rfl, hp1, hla, hda, hp2, ho, htail⟩ := hsh
  obtain ⟨_, _, htsh⟩ := phoneTail_inv htail
  have htu : phoneTail (t ++ u) = some (t, u) := phoneTail_constr htsh hu
  obtain ⟨a1, a2, a3, rfl⟩ := listlen_three hla
  have ha1 : a1.isDigit = true := hda a1 (by simp)
  have ha2 : a2.isDigit = true := hda a2 (by simp)
  have ha3 : a3.isDigit = true := hda a3 (by simp)
  obtain ⟨t0, t2, rfl, ht0⟩ := phoneTailShape_head htsh
  simp only [List.cons_append] at htu
  have hnt0p : ¬ (t0 = ')') := digit_ne ht0 (by decide)
  have hst0 : isSepChar t0 = false := digit_not_sep ht0
  have hna1 : ¬ (a1 = '(') := digit_ne ha1 (by decide)
  rcases ho with rfl | ⟨c, rfl, hc⟩
  · rcases hp1 with rfl | rfl <;> rcases hp2 with rfl | rfl <;>
      simp [phoneGroup, exactDigits, optChar, htu, ha1, ha2, ha3, hna1,
        hnt0p, hst0]
  · have hncr : ¬ (c = ')') := by
      intro hh
      rw [hh] at hc
      exact absurd hc (by decide)
    rcases hp1 with rfl | rfl <;> rcases hp2 with rfl | rfl <;>
      simp [phoneGroup, exactDigits, optChar, htu, ha1, ha2, ha3, hna1,
        hc, hncr, hst0]

lemma ssnMatch_ext {p : Option Char} {m r r2 : List Char}
    (h : ssnMatch p (m ++ r) = some (m, r))
    (hw : wordOpt r2.head? = wordOpt r.head?) :
    ssnMatch p (m ++ r2) = some (m, r2) := by
  obtain ⟨hp, hwr, _, hsh⟩ := ssnMatch_inv h
  exact ssnMatch_constr hp hsh (by rw [hw, hwr])

lemma phone_head_eq {m r r2 : List Char} (hm : m ≠ []) :
    (m ++ r2).head? = (m ++ r).head? := by
  cases m with
  | nil => exact absurd rfl hm
  | cons c t => simp

lemma phoneMatch_ext {p : Option Char} {m r r2 : List Char}
    (h : phoneMatch p (m ++ r) = some (m, r))
    (hw : wordOpt r2.head? = wordOpt r.head?) :
    phoneMatch p (m ++ r2) = some (m, r2) := by
  obtain ⟨hbnd, hwr, _, hcase⟩ := phoneMatch_inv h
  have hmne : m ≠ [] := (matcher_split PIICat.phone p (m ++ r) m r h).2
  have hw2 : wordOpt r2.head? = false := by rw [hw, hwr]
  have hhead : (m ++ r2).head? = (m ++ r).head? := phone_head_eq hmne
  unfold phoneMatch
  have hbnd2 : (wordOpt p == wordOpt (m ++ r2).head?) = false := by
    rw [hhead]
    exact beq_eq_false_iff_ne.mpr hbnd
  rw [hbnd2]
  simp only [Bool.false_eq_true, if_false]
  rcases hcase with hg | ⟨hgnone, ht⟩
  · obtain ⟨_, _, hshape⟩ := phoneGroup_inv hg
    rw [phoneGroup_constr hshape hw2]
    rfl
  · obtain ⟨_, _, htsh⟩ := phoneTail_inv ht
    rw [phoneGroup_none_of_tail htsh hw2, phoneTail_constr htsh hw2]
    rfl

lemma takeWhile_digits_append {m u : List Char} (hd : ∀ c ∈ m, c.isDigit = true)
    (hu : ∀ c, u.head? = some c → c.isDigit = false) :
    (m ++ u).takeWhile (fun c => c.isDigit) = m ∧
    (m ++ u).dropWhile (fun c => c.isDigit) = u := by
  induction m with
  | nil =>
    simp only [List.nil_append]
    cases u with
    | nil => exact ⟨rfl, rfl⟩
    | cons c cs =>
      have hc := hu c rfl
      exact ⟨by simp [List.takeWhile_cons, hc], by simp [List.dropWhile_cons, hc]⟩
  | cons c t ih =>
    have hc : c.isDigit = true := hd c (by simp)
    have iht := ih (fun x hx => hd x (by simp [hx]))
    constructor
    · rw [List.cons_append, List.takeWhile_cons]
      simp [hc, iht.1]
    · rw [List.cons_append, List.dropWhile_cons]
      simp [hc, iht.2]

lemma accountMatch_ext {p : Option Char} {m r r2 : List Char}
    (h : accountMatch p (m ++ r) = some (m, r))
    (hw : wordOpt r2.head? = wordOpt r.head?) :
    accountMatch p (m ++ r2) = some (m, r2) := by
  obtain ⟨hp, hwr, _, hlen, hdig⟩ := accountMatch_inv h
  have hw2 : wordOpt r2.head? = false := by rw [hw, hwr]
  obtain ⟨ht, hdw⟩ := takeWhile_digits_append hdig
    (fun c hc => word_of_digit_head hw2 hc)
  unfold accountMatch
  rw [hp]
  simp only [Bool.false_eq_true, if_false]
  rw [List.span_eq_take_drop, ht, hdw, hw2]
  simp [hlen]

lemma getLast?_append_right (t : List Char) (ht : t ≠ []) :
    ∀ (l : List Char), (l ++ t).getLast? = t.getLast? := by
  intro l
  induction l with
  | nil => rfl
  | cons c l2 ih =>
    rw [List.cons_append]
    cases hl : l2 ++ t with
    | nil =>
      rw [List.append_eq_nil] at hl
      exact absurd hl.2 ht
    | cons x xs => rw [List.getLast?_cons_cons, ← hl, ih]

lemma ssn_spanC {p : Option Char} {s m r : List Char}
    (h : ssnMatch p s = some (m, r)) :
    ∀ c ∈ m, (c.isDigit || c == '-') = true := by
  obtain ⟨_, _, _, d3, o1, d2, o2, d4, rfl, _, _, _, hd3, hd2, hd4, ho1, ho2⟩ :=
    ssnMatch_inv h
  intro c hc
  simp only [List.mem_append] at hc
  rcases hc with (((hc | hc) | hc) | hc) | hc
  · simp [hd3 c hc]
  · rcases ho1 with rfl | rfl
    · simp at hc
    · simp at hc
      subst hc
      decide
  · simp [hd2 c hc]
  · rcases ho2 with rfl | rfl
    · simp at hc
    · simp at hc
      subst hc
      decide
  · simp [hd4 c hc]

lemma ssn_startC {p : Option Char} {c : Char} {cs m r : List Char}
    (h : ssnMatch p (c :: cs) = some (m, r)) : c.isDigit = true := by
  obtain ⟨_, _, hs, d3, o1, d2, o2, d4, rfl, hl3, _, _, hd3, _, _, _, _⟩ :=
    ssnMatch_inv h
  obtain ⟨a1, a2, a3, rfl⟩ := listlen_three hl3
  simp only [List.cons_append, List.append_assoc, List.nil_append] at hs
  injection hs with h1 _
  rw [h1]
  exact hd3 a1 (by simp)

lemma ssn_endWord {p : Option Char} {s m r : List Char}
    (h : ssnMatch p s = some (m, r)) : wordOpt m.getLast? = true := by
  obtain ⟨_, _, _, d3, o1, d2, o2, d4, rfl, _, _, hl4, _, _, hd4, _, _⟩ :=
    ssnMatch_inv h
  obtain ⟨f1, f2, f3, f4, rfl⟩ := listlen_four hl4
  have hf4 : f4.isDigit = true := hd4 f4 (by simp)
  rw [List.append_assoc, List.append_assoc, List.append_assoc,
    getLast?_append_right _ (by simp)]
  rw [getLast?_append_right _ (by simp), getLast?_append_right _ (by simp),
    getLast?_append_right _ (by simp)]
  simp [wordOpt, isDigit_isWordChar hf4]

lemma phoneTailShape_span {m : List Char} (h : PhoneTailShape m) :
    ∀ c ∈ m, (c.isDigit || c == '(' || c == ')' || isSepChar c) = true := by
  obtain ⟨a, o, b, rfl, _, _, hda, hdb, ho⟩ := h
  intro c hc
  simp only [List.mem_append] at hc
  rcases hc with (hc | hc) | hc
  · simp [hda c hc]
  · rcases ho with rfl | ⟨x, rfl, hx⟩
    · simp at hc
    · simp at hc
      subst hc
      simp [hx]
  · simp [hdb c hc]

lemma phoneTailShape_last {m : List Char} (h : PhoneTailShape m) :
    wordOpt m.getLast? = true := by
  obtain ⟨a, o, b, rfl, _, hlb, _, hdb, _⟩ := h
  obtain ⟨b1, b2, b3, b4, rfl⟩ := listlen_four hlb
  have hb4 : b4.isDigit = true := hdb b4 (by simp)
  rw [getLast?_append_right _ (by simp)]
  simp [wordOpt, isDigit_isWordChar hb4]

lemma phoneTailShape_ne_nil {m : List Char} (h : PhoneTailShape m) : m ≠ [] := by
  obtain ⟨c, t2, rfl, _⟩ := phoneTailShape_head h
  simp

lemma phone_spanC {p : Option Char} {s m r : List Char}
    (h : phoneMatch p s = some (m, r)) :
    ∀ c ∈ m, (c.isDigit || c == '(' || c == ')' || isSepChar c) = true := by
  obtain ⟨_, _, _, hcase⟩ := phoneMatch_inv h
  rcases hcase with hg | ⟨_, ht⟩
  · obtain ⟨_, _, p1, a, p2, o, t, rfl, hp1, hla, hda, hp2, ho, htail⟩ :=
      phoneGroup_inv hg
    obtain ⟨_, _, htsh⟩ := phoneTail_inv htail
    intro c hc
    simp only [List.mem_append] at hc
    rcases hc with (((hc | hc) | hc) | hc) | hc
    · rcases hp1 with rfl | rfl
      · simp at hc
      · simp at hc
        subst hc
        decide
    · simp [hda c hc]
    · rcases hp2 with rfl | rfl
      · simp at hc
      · simp at hc
        subst hc
        decide
    · rcases ho with rfl | ⟨x, rfl, hx⟩
      · simp at hc
      · simp at hc
        subst hc
        simp [hx]
    · exact phoneTailShape_span htsh c hc
  · obtain ⟨_, _, htsh⟩ := phoneTail_inv ht
    exact phoneTailShape_span htsh

lemma phone_startC {p : Option Char} {c : Char} {cs m r : List Char}
    (h : phoneMatch p (c :: cs) = some (m, r)) : (c.isDigit || c == '(') = true := by
  obtain ⟨_, _, hs, hcase⟩ := phoneMatch_inv h
  rcases hcase with hg | ⟨_, ht⟩
  · obtain ⟨_, _, p1, a, p2, o, t, rfl, hp1, hla, hda, _, _, _⟩ := phoneGroup_inv hg
    obtain ⟨a1, a2, a3, rfl⟩ := listlen_three hla
    rcases hp1 with rfl | rfl
    · simp only [List.nil_append, List.cons_append, List.append_assoc,
        List.nil_append] at hs
      injection hs with h1 _
      rw [h1]
      simp [hda a1 (by simp)]
    · simp only [List.cons_append, List.append_assoc, List.nil_append] at hs
      injection hs with h1 _
      rw [h1]
      decide
  · obtain ⟨_, _, htsh⟩ := phoneTail_inv ht
    obtain ⟨t0, t2, hm, ht0⟩ := phoneTailShape_head htsh
    rw [hm, List.cons_append] at hs
    injection hs with h1 _
    rw [h1]
    simp [ht0]

lemma phone_endWord {p : Option Char} {s m r : List Char}
    (h : phoneMatch p s = some (m, r)) : wordOpt m.getLast? = true := by
  obtain ⟨_, _, _, hcase⟩ := phoneMatch_inv h
  rcases hcase with hg | ⟨_, ht⟩
  · obtain ⟨_, _, p1, a, p2, o, t, rfl, _, _, _, _, _, htail⟩ := phoneGroup_inv hg
    obtain ⟨_, _, htsh⟩ := phoneTail_inv htail
    obtain ⟨t0, t2, hm, _⟩ := phoneTailShape_head htsh
    have htne : t ≠ [] := by rw [hm]; simp
    rw [getLast?_append_right _ htne]
    exact phoneTailShape_last htsh
  · obtain ⟨_, _, htsh⟩ := phoneTail_inv ht
    exact phoneTailShape_last htsh

lemma acct_startC {p : Option Char} {c : Char} {cs m r : List Char}
    (h : accountMatch p (c :: cs) = some (m, r)) : c.isDigit = true := by
  obtain ⟨_, _, hs, hlen, hdig⟩ := accountMatch_inv h
  cases m with
  | nil => simp at hlen
  | cons x m2 =>
    rw [List.cons_append] at hs
    injection hs with h1 _
    rw [h1]
    exact hdig x (by simp)

lemma acct_endWord {p : Option Char} {s m r : List Char}
    (h : accountMatch p s = some (m, r)) : wordOpt m.getLast? = true := by
  obtain ⟨_, _, _, hlen, hdig⟩ := accountMatch_inv h
  cases hg : m.getLast? with
  | none =>
    rw [List.getLast?_eq_none_iff] at hg
    rw [hg] at hlen
    simp at hlen
  | some x =>
    have hx : x.isDigit = true := hdig x (List.mem_of_mem_getLast? hg)
    simp [wordOpt, isDigit_isWordChar hx]

lemma subidem_ssn :
    SubIdemOK ssnMatch (maskFor PIICat.ssn)
      (fun c => c.isDigit || c == '-') (fun c => c.isDigit) where
  split := fun p s m r h => matcher_split PIICat.ssn p s m r h
  prevClass := fun p p2 s hw => by unfold ssnMatch; rw [hw]
  spanC := fun p s m r h => ssn_spanC h
  startC := fun p c cs m r h => ssn_startC h
  endWord := fun p s m r h => ssn_endWord h
  endBound := fun p s m r h => (ssnMatch_inv h).2.1
  ext := fun p m r r2 h hw => ssnMatch_ext h hw
  maskNe := fun m _ h => by
    rw [show maskFor PIICat.ssn m =
      ['X', 'X', 'X', '-', 'X', 'X', '-', 'X', 'X', 'X', 'X'] from rfl] at h
    cases h
  maskHeadWord := fun m c hc => by
    rw [show (maskFor PIICat.ssn m).head? = some 'X' from rfl] at hc
    injection hc with hc
    rw [← hc]
    decide
  maskHeadSpan := fun m c hc => by
    rw [show (maskFor PIICat.ssn m).head? = some 'X' from rfl] at hc
    injection hc with hc
    rw [← hc]
    decide
  maskStart := fun m c hc => by
    rw [show maskFor PIICat.ssn m =
      ['X', 'X', 'X', '-', 'X', 'X', '-', 'X', 'X', 'X', 'X'] from rfl] at hc
    fin_cases hc <;> decide
  maskLastWord := fun m c hc => by
    rw [show (maskFor PIICat.ssn m).getLast? = some 'X' from rfl] at hc
    injection hc with hc
    rw [← hc]
    decide

lemma subidem_phone :
    SubIdemOK phoneMatch (maskFor PIICat.phone)
      (fun c => c.isDigit || c == '(' || c == ')' || isSepChar c)
      (fun c => c.isDigit || c == '(') where
  split := fun p s m r h => matcher_split PIICat.phone p s m r h
  prevClass := fun p p2 s hw => by unfold phoneMatch; rw [hw]
  spanC := fun p s m r h => phone_spanC h
  startC := fun p c cs m r h => phone_startC h
  endWord := fun p s m r h => phone_endWord h
  endBound := fun p s m r h => (phoneMatch_inv h).2.1
  ext := fun p m r r2 h hw => phoneMatch_ext h hw
  maskNe := fun m _ h => by
    rw [show maskFor PIICat.phone m =
      ['X', 'X', 'X', '-', 'X', 'X', 'X', '-', 'X', 'X', 'X', 'X'] from rfl] at h
    cases h
  maskHeadWord := fun m c hc => by
    rw [show (maskFor PIICat.phone m).head? = some 'X' from rfl] at hc
    injection hc with hc
    rw [← hc]
    decide
  maskHeadSpan := fun m c hc => by
    rw [show (maskFor PIICat.phone m).head? = some 'X' from rfl] at hc
    injection hc with hc
    rw [← hc]
    decide
  maskStart := fun m c hc => by
    rw [show maskFor PIICat.phone m =
      ['X', 'X', 'X', '-', 'X', 'X', 'X', '-', 'X', 'X', 'X', 'X'] from rfl] at hc
    fin_cases hc <;> decide
  maskLastWord := fun m c hc => by
    rw [show (maskFor PIICat.phone m).getLast? = some 'X' from rfl] at hc
    injection hc with hc
    rw [← hc]
    decide

lemma replicate_head {n : Nat} {a c : Char}
    (hc : (List.replicate n a).head? = some c) : c = a := by
  cases n with
  | zero => simp at hc
  | succ k =>
    rw [List.replicate_succ] at hc
    simp at hc
    rw [hc]

lemma subidem_account :
    SubIdemOK accountMatch (maskFor PIICat.account)
      (fun c => c.isDigit) (fun c => c.isDigit) where
  split := fun p s m r h => matcher_split PIICat.account p s m r h
  prevClass := fun p p2 s hw => by unfold accountMatch; rw [hw]
  spanC := fun p s m r h => (accountMatch_inv h).2.2.2.2
  startC := fun p c cs m r h => acct_startC h
  endWord := fun p s m r h => acct_endWord h
  endBound := fun p s m r h => (accountMatch_inv h).2.1
  ext := fun p m r r2 h hw => accountMatch_ext h hw
  maskNe := fun m hm => by
    show List.replicate m.length 'X' ≠ []
    rw [Ne, List.replicate_eq_nil]
    intro h0
    exact hm (List.length_eq_zero.mp h0)
  maskHeadWord := fun m c hc => by
    rw [replicate_head hc]
    decide
  maskHeadSpan := fun m c hc => by
    rw [replicate_head hc]
    decide
  maskStart := fun m c hc => by
    rw [List.eq_of_mem_replicate hc]
    decide
  maskLastWord := fun m c hc => by
    have : c ∈ List.replicate m.length 'X' := List.mem_of_mem_getLast? hc
    rw [List.eq_of_mem_replicate this]
    decide

lemma redactStr_idem {c : PIICat} (hc : c ≠ PIICat.email) (s : String) :
    redactStr (redactStr s c) c = redactStr s c := by
  cases c with
  | email => exact absurd rfl hc
  | ssn => exact congrArg String.mk (sub_idem subidem_ssn s.data)
  | phone => exact congrArg String.mk (sub_idem subidem_phone s.data)
  | account => exact congrArg String.mk (sub_idem subidem_account s.data)

lemma redact_pii_cell (v : Cell) (hv : v ≠ Cell.na) (c : PIICat) :
    redact_pii v (catKey c) = Cell.str (redactStr (cellStr v) c) := by
  cases v with
  | na => exact absurd rfl hv
  | str s => cases c <;> rfl
  | num q => cases c <;> rfl

/-- C5: redaction is idempotent for the SSN, Phone and AccountNumber
categories — re-redacting an already-redacted value changes nothing — but
not for Email (see the counterexample): the literal claim, quantified over
every category, is false.  This theorem is the corrected statement for the
three idempotent categories. -/
theorem C5_redaction_idempotent_non_email (v : Cell) (c : PIICat)
    (hc : c ≠ PIICat.email) :
    redact_pii (redact_pii v (catKey c)) (catKey c) = redact_pii v (catKey c) := by
  cases v with
  | na => rfl
  | str s =>
    rw [redact_pii_cell (Cell.str s) (fun h => Cell.noConfusion h) c,
      redact_pii_cell _ (fun h => Cell.noConfusion h) c]
    simp only [cellStr]
    rw [redactStr_idem hc]
  | num q =>
    rw [redact_pii_cell (Cell.num q) (fun h => Cell.noConfusion h) c,
      redact_pii_cell _ (fun h => Cell.noConfusion h) c]
    simp only [cellStr]
    rw [redactStr_idem hc]

/-- C5 counterexample: for the Email category redaction is not idempotent.
On `a@b.cc.a@b.cc` the first pass redacts the two overlapping-boundary
emails into `REDACTED@EMAIL.COMREDACTED@EMAIL.COM`, in which the second
pass finds a fresh, longer email match (`COMREDACTED@EMAIL.COM`), so the
second pass changes the value again. -/
theorem C5_email_not_idempotent_cex :
    redact_pii (redact_pii (Cell.str "a@b.cc.a@b.cc") "email") "email" ≠
      redact_pii (Cell.str "a@b.cc.a@b.cc") "email" := by
  with_unfolding_all decide

/-- C5 witness: the corrected idempotence theorem applied to a concrete
SSN-bearing cell. -/
theorem C5_redaction_idempotent_witness :
    PIICat.ssn ≠ PIICat.email ∧
    redact_pii (redact_pii (Cell.str "ssn 123-45-6789") (catKey PIICat.ssn))
        (catKey PIICat.ssn) =
      redact_pii (Cell.str "ssn 123-45-6789") (catKey PIICat.ssn) :=
  ⟨by decide,
    C5_redaction_idempotent_non_email (Cell.str "ssn 123-45-6789") PIICat.ssn
      (by decide)⟩
